import Mathlib

/-!
# Named-pipe byte-stream transfer (`main.c`): model and verified properties

A shallow embedding of `task_1_multiprocess_fifo_data_transfer/main.c`.

* The operating system is an explicit environment.  A readable descriptor is
  the list of results its future `read` calls will meet (chunks of bytes
  becoming available, failures with an `errno`); once the list is used up every
  `read` returns 0 (end of stream).  A writable descriptor is the list of
  results its future `write` calls will meet (accept up to `n` bytes, fail with
  an `errno`) together with the bytes accepted so far; once the list is used up
  every `write` accepts the whole request.
* The C loops (`while`, `for`) are recursive functions on a step budget; a
  result of `none` means the budget ran out.  For each loop a lemma gives a
  budget that is always enough.
* `ssize_t` is 64-bit two's complement (`toSsize`), `unsigned` is 32 bits,
  `pid_t` is a 32-bit signed integer, `uintmax_t` is 64 bits.
-/

namespace Lunev

/-! ## The environment -/

/-- One byte (`char`). -/
abbrev Byte := Fin 256

/-- The `errno` values the program distinguishes; `EOTHER` stands for every other error. -/
inductive Errno where
  | EINTR
  | EAGAIN
  | EEXIST
  | EOTHER
  deriving DecidableEq, Repr

/-- Result of a system call that returns an integer: a value `≥ 0`, or `-1` with `errno` set. -/
inductive Ret where
  | ok (n : Nat)
  | err (e : Errno)
  deriving DecidableEq, Repr

/-- The C return value of a system call. -/
def Ret.val : Ret → Int
  | .ok n => (n : Int)
  | .err _ => -1

/-- What a future `read` on a descriptor meets: bytes that have become available, or a failure. -/
inductive ReadEv where
  | data (bs : List Byte)
  | fail (e : Errno)
  deriving DecidableEq, Repr

/-- A readable descriptor: the results its future reads will meet, then end of stream. -/
abbrev InFd := List ReadEv

/-- Result of one `read`: the bytes stored in the buffer (the return value is their number),
or `-1` with `errno`. -/
inductive RdRes where
  | ok (bs : List Byte)
  | err (e : Errno)
  deriving DecidableEq, Repr

/-- Run `read(fd, buf, count)`.  At most `count` bytes of an available chunk are delivered,
and the rest of the chunk stays available for the next call. -/
def read (fd : InFd) (count : Nat) : RdRes × InFd :=
  match fd with
  | [] => (.ok [], [])
  | .fail e :: rest => (.err e, rest)
  | .data bs :: rest =>
    if bs.length ≤ count then (.ok bs, rest)
    else (.ok (bs.take count), .data (bs.drop count) :: rest)

/-- What a future `write` on a descriptor meets: up to `n` bytes are accepted, or a failure. -/
inductive WriteEv where
  | accept (n : Nat)
  | fail (e : Errno)
  deriving DecidableEq, Repr

/-- A writable descriptor: the results its future writes will meet, and the bytes accepted
so far, in order. -/
structure OutFd where
  sched : List WriteEv
  written : List Byte
  deriving DecidableEq, Repr

/-- Run `write(fd, buf, len)` with `len = buf.length`. -/
def write (fd : OutFd) (buf : List Byte) : Ret × OutFd :=
  match fd.sched with
  | [] => (.ok buf.length, { sched := [], written := fd.written ++ buf })
  | .fail e :: rest => (.err e, { sched := rest, written := fd.written })
  | .accept n :: rest =>
    (.ok (min n buf.length), { sched := rest, written := fd.written ++ buf.take n })

/-- The byte stream a readable descriptor holds: its chunks, concatenated. -/
def stream : InFd → List Byte
  | [] => []
  | .data bs :: rest => bs ++ stream rest
  | .fail _ :: rest => stream rest

/-- An upper bound on the number of `read` calls (with a positive count) that a descriptor
can answer before it is used up. -/
def InFd.size : InFd → Nat
  | [] => 0
  | .data bs :: rest => bs.length + 1 + InFd.size rest
  | .fail _ :: rest => 1 + InFd.size rest

/-! ## Machine integers -/

/-- Conversion to `ssize_t` (64-bit two's complement). -/
def toSsize (x : Int) : Int := (x + 2 ^ 63) % 2 ^ 64 - 2 ^ 63

/-- Conversion to `unsigned` (32 bits). -/
def toUnsigned (x : Nat) : Nat := x % 2 ^ 32

/-! ## Byte Copier (`main.c` lines 26-74) -/

/-- Model of `const int FDTOFD_CPY_BUF_SIZE = 512;`. -/
def FDTOFD_CPY_BUF_SIZE : Nat := 512

/-- The loop of `buftofd_cpy`: `buf` is the part of the buffer not yet written (`len` is its
length), `tmp` the result of the last `write` (initially 1). -/
def buftofd_loop (count : Nat) : Nat → OutFd → List Byte → Int → Option (Int × OutFd)
  | 0, _, _, _ => none
  | fuel + 1, fd_out, buf, tmp =>
    -- while (len && tmp)
    if buf.length ≠ 0 ∧ tmp ≠ 0 then
      -- tmp = write(fd_out, buf, len);
      match write fd_out buf with
      | (.err e, fd_out') =>
        -- if (tmp == -1) { if (errno != EINTR) return -1; }
        if e ≠ .EINTR then some (-1, fd_out')
        else buftofd_loop count fuel fd_out' buf (-1)
      | (.ok n, fd_out') =>
        -- else { len -= tmp; buf += tmp; }
        buftofd_loop count fuel fd_out' (buf.drop n) (n : Int)
    else
      -- return count - len;
      some (toSsize ((count : Int) - (buf.length : Int)), fd_out)

/-- Model of `ssize_t buftofd_cpy(int fd_out, char *buf, size_t count)`, with
`count = buf.length`. -/
def buftofd_cpy (fuel : Nat) (fd_out : OutFd) (buf : List Byte) : Option (Int × OutFd) :=
  buftofd_loop buf.length fuel fd_out buf 1

/-- The `while (1)` loop of `fdtofd_cpy`; `fuel` is the budget of each inner
`buftofd_cpy`, the first numeric argument the budget of this loop. -/
def fdtofd_loop (fuel : Nat) : Nat → OutFd → InFd → Int → Option (Int × OutFd × InFd)
  | 0, _, _, _ => none
  | k + 1, fd_out, fd_in, sumary =>
    -- ssize_t len = read(fd_in, buf, FDTOFD_CPY_BUF_SIZE);
    match read fd_in FDTOFD_CPY_BUF_SIZE with
    | (.err e, fd_in') =>
      -- if (len == -1) { if (errno == EINTR) { errno = 0; continue; } free(buf); return -1; }
      if e = .EINTR then fdtofd_loop fuel k fd_out fd_in' sumary
      else some (-1, fd_out, fd_in')
    | (.ok bs, fd_in') =>
      -- else if (len == 0) break;
      if bs.length = 0 then some (sumary, fd_out, fd_in')
      else
        -- ssize_t tmp = buftofd_cpy(fd_out, buf, len);
        match buftofd_cpy fuel fd_out bs with
        | none => none
        | some (tmp, fd_out') =>
          -- if (tmp == -1) { free(buf); return -1; }
          if tmp = -1 then some (-1, fd_out', fd_in')
          else
            -- sumary += tmp;
            let sumary' := toSsize (sumary + tmp)
            -- if (tmp != len) break;
            if tmp ≠ (bs.length : Int) then some (sumary', fd_out', fd_in')
            else fdtofd_loop fuel k fd_out' fd_in' sumary'

/-- Model of `ssize_t fdtofd_cpy(int fd_out, int fd_in)`.  `mallocOk` tells whether
`malloc(FDTOFD_CPY_BUF_SIZE)` returns a buffer. -/
def fdtofd_cpy (fuel : Nat) (mallocOk : Bool) (fd_out : OutFd) (fd_in : InFd) :
    Option (Int × OutFd × InFd) :=
  -- if (buf == NULL) return -1;
  if mallocOk = false then some (-1, fd_out, fd_in)
  else fdtofd_loop fuel fuel fd_out fd_in 0

/-! ## Identity and channel path (`main.c` lines 10-18, 76-90) -/

/-- Model of `struct ident_t { pid_t pid; }`. -/
structure ident_t where
  pid : Int
  deriving DecidableEq, Repr

/-- The values a 4-byte signed `pid_t` can hold. -/
def ident_t.inRange (id : ident_t) : Prop := -(2 ^ 31 : Int) ≤ id.pid ∧ id.pid < 2 ^ 31

instance (id : ident_t) : Decidable id.inRange := by
  unfold ident_t.inRange; exact inferInstance

/-- Model of `sizeof(struct ident_t)`. -/
def sizeof_ident_t : Nat := 4

/-- Reduce a number to one byte. -/
def byteOf (n : Nat) : Byte := ⟨n % 256, Nat.mod_lt _ (by decide)⟩

/-- The object representation of an `ident_t` (what `write(fd, &id, sizeof(id))` sends):
four bytes, least significant first. -/
def ident_t.bytes (id : ident_t) : List Byte :=
  let u : Nat := (id.pid % 2 ^ 32).toNat
  [byteOf u, byteOf (u / 2 ^ 8), byteOf (u / 2 ^ 16), byteOf (u / 2 ^ 24)]

/-- The `ident_t` whose object representation is the given bytes
(what `read(fd, &id, sizeof(id))` stores). -/
def ident_t.ofBytes (bs : List Byte) : ident_t :=
  let u : Nat := (bs.getD 0 0).val + (bs.getD 1 0).val * 2 ^ 8 + (bs.getD 2 0).val * 2 ^ 16
    + (bs.getD 3 0).val * 2 ^ 24
  { pid := if u < 2 ^ 31 then (u : Int) else (u : Int) - 2 ^ 32 }

/-- Model of `const char FIFO_QUEUE_PATH[] = "queue.fifo";`. -/
def FIFO_QUEUE_PATH : List Char := ['q', 'u', 'e', 'u', 'e', '.', 'f', 'i', 'f', 'o']

/-- Model of `const char FIFO_CHANNEL_PATH_PREFIX[] = "channel.";` (without the NUL). -/
def FIFO_CHANNEL_PATH_PREFIX : List Char := ['c', 'h', 'a', 'n', 'n', 'e', 'l', '.']

/-- Model of `FIFO_CHANNEL_PATH_MAX = sizeof(FIFO_CHANNEL_PATH_PREFIX) + sizeof(struct ident_t) * 2`;
`sizeof` of the array counts the terminating NUL. -/
def FIFO_CHANNEL_PATH_MAX : Nat := (FIFO_CHANNEL_PATH_PREFIX.length + 1) + sizeof_ident_t * 2

/-- Conversion `(uintmax_t) x` (64 bits). -/
def toUintmax (x : Int) : Nat := (x % 2 ^ 64).toNat

/-- Digits produced by the conversion `%jx`, most significant first: the accumulator holds
the digits already produced (the less significant ones). -/
def hexLoop : Nat → Nat → List Char → List Char
  | 0, _, acc => acc
  | fuel + 1, n, acc =>
    if n < 16 then Nat.digitChar n :: acc
    else hexLoop fuel (n / 16) (Nat.digitChar (n % 16) :: acc)

/-- Model of the `printf` conversion `%jx` of a `uintmax_t`: lowercase hexadecimal, no
padding; a 64-bit value has at most 16 digits. -/
def hexDigits (n : Nat) : List Char := hexLoop 16 n []

/-- The value of one lowercase hexadecimal digit. -/
def hexVal (c : Char) : Nat :=
  if '0' ≤ c ∧ c ≤ '9' then c.toNat - '0'.toNat
  else if 'a' ≤ c ∧ c ≤ 'f' then c.toNat - 'a'.toNat + 10
  else 0

/-- The number a string of hexadecimal digits denotes. -/
def hexValue (cs : List Char) : Nat := cs.foldl (fun a c => 16 * a + hexVal c) 0

/-- Whether a character is one of `0123456789abcdef`. -/
def isLowerHex (c : Char) : Bool := ('0' ≤ c && c ≤ '9') || ('a' ≤ c && c ≤ 'f')

/-- What one call of `get_channel_path` does. -/
structure PathCall where
  /-- The value returned. -/
  ret : Int
  /-- The pointer stored in `*buf_p`: the size of the allocated buffer, `none` for `NULL`. -/
  dest : Option Nat
  /-- The characters `sprintf` stores through `*buf_p` (a NUL follows them); `none` when
  `sprintf` is not called. -/
  text : Option (List Char)
  deriving DecidableEq, Repr

/-- Model of `int get_channel_path(char **buf_p, struct ident_t id)`.  `bufpNull` tells
whether the argument `buf_p` is `NULL` (both callers pass the address of a local variable),
`mallocOk` whether `malloc` returns a buffer. -/
def get_channel_path (bufpNull : Bool) (mallocOk : Bool) (id : ident_t) : PathCall :=
  -- *buf_p = malloc(sizeof(char) * FIFO_CHANNEL_PATH_MAX);
  let dest := if mallocOk then some FIFO_CHANNEL_PATH_MAX else none
  -- if (buf_p == NULL) return -1;
  if bufpNull then { ret := -1, dest := dest, text := none }
  else
    -- return sprintf(*buf_p, "%s%jx\0", FIFO_CHANNEL_PATH_PREFIX, (uintmax_t) id.pid);
    let text := FIFO_CHANNEL_PATH_PREFIX ++ hexDigits (toUintmax id.pid)
    { ret := (text.length : Int), dest := dest, text := some text }

/-- The number of bytes a call stores through `*buf_p`: the characters and the NUL. -/
def PathCall.bytesStored (c : PathCall) : Nat :=
  match c.text with
  | none => 0
  | some t => t.length + 1

/-- A call is memory-safe when `sprintf`, if reached, stores into a buffer that exists and
is large enough. -/
def PathCall.safe (c : PathCall) : Bool :=
  match c.text, c.dest with
  | none, _ => true
  | some _, none => false
  | some t, some cap => decide (t.length + 1 ≤ cap)

/-- Model of `int init_channel(char *path, mode_t mode)`; the argument is the result of
`mkfifo(path, mode)`. -/
def init_channel (mkfifoRes : Ret) : Int :=
  match mkfifoRes with
  -- if (mkfifo(path, mode) != -1) return 0;
  | .ok _ => 0
  -- if (errno != EEXIST) { perror("Error: mkfifo"); return -1; } return 0;
  | .err e => if e ≠ .EEXIST then -1 else 0

/-! ## Backoff Waiter (`main.c` lines 22-23, 105-122) -/

/-- Model of `const unsigned FIFO_MAX_SLEEP_US = ((unsigned)2) << 22;`. -/
def FIFO_MAX_SLEEP_US : Nat := toUnsigned (2 <<< 22)

/-- Model of `const unsigned FIFO_MIN_SLEEP_US = ((unsigned)2) << 2;`. -/
def FIFO_MIN_SLEEP_US : Nat := toUnsigned (2 <<< 2)

/-- What `receiver_wait_byte` did: the number of `read` calls and the arguments of its
`usleep` calls, in order. -/
structure WaitLog where
  reads : Nat
  sleeps : List Nat
  deriving DecidableEq, Repr

/-- The `for` loop of `receiver_wait_byte`. -/
def wait_loop : Nat → Nat → InFd → WaitLog → Option (Int × InFd × WaitLog)
  | 0, _, _, _ => none
  | fuel + 1, delay, fd, log =>
    -- for (; delay <= FIFO_MAX_SLEEP_US; delay *= 2)
    if delay ≤ FIFO_MAX_SLEEP_US then
      -- tmp = read(fd, &msg, sizeof(msg));
      match read fd 1 with
      | (.ok bs, fd') =>
        -- if (tmp > 0) return 1;
        if bs.length > 0 then some (1, fd', { log with reads := log.reads + 1 })
        else
          -- usleep(delay);
          wait_loop fuel (toUnsigned (delay * 2)) fd'
            { reads := log.reads + 1, sleeps := log.sleeps ++ [delay] }
      | (.err e, fd') =>
        -- if (tmp == -1 && errno != EAGAIN) return -1;
        if e ≠ .EAGAIN then some (-1, fd', { log with reads := log.reads + 1 })
        else
          wait_loop fuel (toUnsigned (delay * 2)) fd'
            { reads := log.reads + 1, sleeps := log.sleeps ++ [delay] }
    else
      -- return 0;
      some (0, fd, log)

/-- Model of `int receiver_wait_byte(int fd)`: 1 is Ready, 0 is Dead, -1 is Error. -/
def receiver_wait_byte (fuel : Nat) (fd : InFd) : Option (Int × InFd × WaitLog) :=
  wait_loop fuel FIFO_MIN_SLEEP_US fd { reads := 0, sleeps := [] }

/-! ## The two roles (`main.c` lines 124-245) -/

/-- The C return value of a `read`. -/
def RdRes.val : RdRes → Int
  | .ok bs => (bs.length : Int)
  | .err _ => -1

/-- The bytes a `read` stored. -/
def RdRes.bytes : RdRes → List Byte
  | .ok bs => bs
  | .err _ => []

/-- Whether `errno` is `e` after the call. -/
def Ret.errnoIs (r : Ret) (e : Errno) : Bool :=
  match r with
  | .ok _ => false
  | .err e' => decide (e' = e)

/-- The calls of a role that the properties below observe. -/
inductive Event where
  | usleep (us : Nat)
  | unlink (path : List Char)
  deriving DecidableEq, Repr

/-- How a run of a role ends: the step budget ran out, the run reached undefined behaviour
(`sprintf` storing through `NULL` or past the end of its buffer), or the role returned. -/
inductive Outcome (α : Type) where
  | outOfFuel
  | undefined
  | done (a : α)
  deriving DecidableEq, Repr

/-- Model of `get_id`: the argument is the result of `getpid()`. -/
def get_id (pid : Int) : ident_t := { pid := pid }

/-- Everything the environment decides in one run of `receiver()`. -/
structure SinkEnv where
  /-- Result of `getpid()`. -/
  pid : Int
  /-- Whether `malloc` in `get_channel_path` returns a buffer. -/
  pathMalloc : Bool
  /-- Result of `mkfifo(channel_path, FIFO_MODE)`. -/
  mkfifoChannel : Ret
  /-- Result of `open(channel_path, O_RDONLY | O_NONBLOCK)`. -/
  openChannel : Ret
  /-- Result of `mkfifo(FIFO_QUEUE_PATH, FIFO_MODE)`. -/
  mkfifoQueue : Ret
  /-- Result of `open(FIFO_QUEUE_PATH, O_RDWR)`. -/
  openQueue : Ret
  /-- The queue, as written by this process. -/
  queue : OutFd
  /-- The channel, as read by this process. -/
  channel : InFd
  /-- Result of `fcntl(fd_channel, F_SETFL, O_RDONLY)`. -/
  fcntlChannel : Ret
  /-- Whether `malloc` in `fdtofd_cpy` returns a buffer. -/
  copyMalloc : Bool
  /-- Standard output. -/
  stdout : OutFd
  /-- Result of `close(fd_channel)`. -/
  closeChannel : Ret
  /-- Result of `close(fd_queue)`. -/
  closeQueue : Ret
  deriving DecidableEq, Repr

/-- What a run of `receiver()` leaves behind. -/
structure SinkRun where
  ret : Int
  trace : List Event
  queue : OutFd
  channel : InFd
  stdout : OutFd
  deriving DecidableEq, Repr

/-- Model of `int receiver()`.  `ERR_HANDLER` and `ERR_HANDLER_PERR` print, call
`unlink(channel_path)`, free the path and return -1. -/
def receiver (fuel : Nat) (w : SinkEnv) : Outcome SinkRun :=
  -- struct ident_t id = get_id();
  let id := get_id w.pid
  -- get_channel_path(&channel_path, id);
  let pc := get_channel_path false w.pathMalloc id
  match pc.safe, pc.text with
  | true, some channel_path =>
    let errHandler (tr : List Event) (q : OutFd) (ch : InFd) (out : OutFd) : Outcome SinkRun :=
      .done { ret := -1, trace := tr ++ [.unlink channel_path], queue := q, channel := ch,
              stdout := out }
    -- if (init_channel(channel_path, FIFO_MODE) == -1) ERR_HANDLER("init channel");
    if init_channel w.mkfifoChannel = -1 then errHandler [] w.queue w.channel w.stdout
    -- if (fd_channel == -1) ERR_HANDLER_PERR("open channel");
    else if w.openChannel.val = -1 then errHandler [] w.queue w.channel w.stdout
    -- if (mkfifo(FIFO_QUEUE_PATH, FIFO_MODE) == -1 && errno != EEXIST) ERR_HANDLER_PERR(..);
    else if w.mkfifoQueue.val = -1 ∧ w.mkfifoQueue.errnoIs .EEXIST = false then
      errHandler [] w.queue w.channel w.stdout
    -- if (fd_queue == -1) ERR_HANDLER_PERR("open queue");
    else if w.openQueue.val = -1 then errHandler [] w.queue w.channel w.stdout
    else
      -- if (write(fd_queue, &id, sizeof(id)) != sizeof(id)) ERR_HANDLER_PERR(..);
      match write w.queue id.bytes with
      | (wr, q) =>
        if wr.val ≠ (sizeof_ident_t : Int) then errHandler [] q w.channel w.stdout
        else
          -- if (receiver_wait_byte(fd_channel) != 1) ERR_HANDLER("It seems the sender is dead\n");
          match receiver_wait_byte fuel w.channel with
          | none => .outOfFuel
          | some (ready, ch, log) =>
            let tr := log.sleeps.map Event.usleep
            if ready ≠ 1 then errHandler tr q ch w.stdout
            -- if (fcntl(fd_channel, F_SETFL, O_RDONLY) == -1) ERR_HANDLER_PERR("fcntl channel");
            else if w.fcntlChannel.val = -1 then errHandler tr q ch w.stdout
            else
              -- if (fdtofd_cpy(STDOUT_FILENO, fd_channel) == -1) ERR_HANDLER(..);
              match fdtofd_cpy fuel w.copyMalloc w.stdout ch with
              | none => .outOfFuel
              | some (copied, out, ch') =>
                if copied = -1 then errHandler tr q ch' out
                -- if (close(fd_channel) == -1) ERR_HANDLER_PERR("close channel");
                else if w.closeChannel.val = -1 then errHandler tr q ch' out
                -- if (close(fd_queue) == -1) ERR_HANDLER_PERR("close queue");
                else if w.closeQueue.val = -1 then errHandler tr q ch' out
                else
                  -- unlink(channel_path); free(channel_path); return 0;
                  .done { ret := 0, trace := tr ++ [.unlink channel_path], queue := q,
                          channel := ch', stdout := out }
  | _, _ => .undefined

/-- Everything the environment decides in one run of `sender(inp_path)`. -/
structure SourceEnv where
  /-- Result of `open(inp_path, O_RDONLY)`. -/
  openInput : Ret
  /-- Result of `mkfifo(FIFO_QUEUE_PATH, FIFO_MODE)`. -/
  mkfifoQueue : Ret
  /-- Result of `open(FIFO_QUEUE_PATH, O_RDWR)`. -/
  openQueue : Ret
  /-- The queue, as read by this process. -/
  queue : InFd
  /-- Whether `malloc` in `get_channel_path` returns a buffer. -/
  pathMalloc : Bool
  /-- Result of `open(channel_path, O_NONBLOCK | O_WRONLY)`. -/
  openChannel : Ret
  /-- Result of `fcntl(fd_channel, F_SETFL, O_WRONLY)`. -/
  fcntlChannel : Ret
  /-- The channel, as written by this process. -/
  channel : OutFd
  /-- Whether `malloc` in `fdtofd_cpy` returns a buffer. -/
  copyMalloc : Bool
  /-- The input file. -/
  input : InFd
  /-- Result of `close(fd_channel)`. -/
  closeChannel : Ret
  /-- Result of `close(fd_inp)`. -/
  closeInput : Ret
  /-- Result of `close(fd_queue)`. -/
  closeQueue : Ret
  deriving DecidableEq, Repr

/-- What a run of `sender()` leaves behind. -/
structure SourceRun where
  ret : Int
  trace : List Event
  queue : InFd
  channel : OutFd
  input : InFd
  deriving DecidableEq, Repr

/-- Model of `int sender(const char *inp_path)`.  `ERR_PERR_RET` prints and returns -1;
`ERR_HANDLER` and `ERR_HANDLER_PERR` also call `unlink(channel_path)`. -/
def sender (fuel : Nat) (w : SourceEnv) : Outcome SourceRun :=
  let errRet (q : InFd) : Outcome SourceRun :=
    .done { ret := -1, trace := [], queue := q, channel := w.channel, input := w.input }
  -- if (fd_inp == -1) ERR_PERR_RET("open input file");
  if w.openInput.val = -1 then errRet w.queue
  -- if (mkfifo(FIFO_QUEUE_PATH, FIFO_MODE) == -1 && errno != EEXIST) ERR_PERR_RET(..);
  else if w.mkfifoQueue.val = -1 ∧ w.mkfifoQueue.errnoIs .EEXIST = false then errRet w.queue
  -- if (fd_queue == -1) ERR_PERR_RET("open queue");
  else if w.openQueue.val = -1 then errRet w.queue
  else
    -- if (read(fd_queue, &id, sizeof(id)) != sizeof(id)) ERR_PERR_RET("read id from queue");
    match read w.queue sizeof_ident_t with
    | (rd, q) =>
      if rd.val ≠ (sizeof_ident_t : Int) then errRet q
      else
        let id := ident_t.ofBytes rd.bytes
        -- get_channel_path(&channel_path, id);
        let pc := get_channel_path false w.pathMalloc id
        match pc.safe, pc.text with
        | true, some channel_path =>
          let errHandler (ch : OutFd) (inp : InFd) : Outcome SourceRun :=
            .done { ret := -1, trace := [.unlink channel_path], queue := q, channel := ch,
                    input := inp }
          -- if (fd_channel == -1) ERR_HANDLER_PERR("It seems the receiver is dead");
          if w.openChannel.val = -1 then errHandler w.channel w.input
          -- if (fcntl(fd_channel, F_SETFL, O_WRONLY) == -1) ERR_HANDLER_PERR("fcntl channel");
          else if w.fcntlChannel.val = -1 then errHandler w.channel w.input
          else
            -- char msg = 1;
            -- if (buftofd_cpy(fd_channel, &msg, sizeof(msg)) == -1) ERR_HANDLER("send sync-msg");
            match buftofd_cpy fuel w.channel [1] with
            | none => .outOfFuel
            | some (sent, ch) =>
              if sent = -1 then errHandler ch w.input
              else
                -- if (fdtofd_cpy(fd_channel, fd_inp) == -1) ERR_HANDLER(..);
                match fdtofd_cpy fuel w.copyMalloc ch w.input with
                | none => .outOfFuel
                | some (copied, ch', inp) =>
                  if copied = -1 then errHandler ch' inp
                  -- if (close(fd_channel) == -1) ERR_HANDLER_PERR("close channel");
                  else if w.closeChannel.val = -1 then errHandler ch' inp
                  -- if (close(fd_inp) == -1) ERR_HANDLER_PERR("close input file");
                  else if w.closeInput.val = -1 then errHandler ch' inp
                  -- if (close(fd_queue) == -1) ERR_HANDLER_PERR("close queue");
                  else if w.closeQueue.val = -1 then errHandler ch' inp
                  else
                    -- unlink(channel_path); free(channel_path); return 0;
                    .done { ret := 0, trace := [.unlink channel_path], queue := q,
                            channel := ch', input := inp }
        | _, _ => .undefined

/-! ## Schedules -/

/-- A read result that the copier rides out: an interrupted call, or a non-empty chunk. -/
def ReadEv.benign : ReadEv → Bool
  | .data bs => decide (bs ≠ [])
  | .fail e => decide (e = .EINTR)

/-- A write result that the copier rides out: an interrupted call, or at least one byte
accepted. -/
def WriteEv.benign : WriteEv → Bool
  | .accept n => decide (1 ≤ n)
  | .fail e => decide (e = .EINTR)

/-- A write that fails with an error other than `EINTR`. -/
def WriteEv.hard : WriteEv → Bool
  | .accept _ => false
  | .fail e => decide (e ≠ .EINTR)

/-- The bytes a readable descriptor delivers up to the end of its stream, that is, up to
the first `read` that returns 0 bytes (an empty chunk, or the end of the schedule). -/
def untilEof : InFd → List Byte
  | [] => []
  | .fail _ :: rest => untilEof rest
  | .data bs :: rest => if bs = [] then [] else bs ++ untilEof rest

/-- The state of a readable descriptor right after the first `read` that returns 0 bytes. -/
def afterEof : InFd → InFd
  | [] => []
  | .fail _ :: rest => afterEof rest
  | .data bs :: rest => if bs = [] then rest else afterEof rest

/-- A read result that leaves the waiter without its byte: `EAGAIN`, or 0 bytes. -/
def ReadEv.idle : ReadEv → Bool
  | .data bs => decide (bs = [])
  | .fail e => decide (e = .EAGAIN)

/-- The call returned -1. -/
def Ret.failed : Ret → Bool
  | .ok _ => false
  | .err _ => true

/-- A `mkfifo` that returned -1 for a reason other than the path existing already. -/
def Ret.mkfifoFailed : Ret → Bool
  | .ok _ => false
  | .err e => decide (e ≠ .EEXIST)

/-- One of the steps of `receiver()` fails in the run that the environment `w` decides:
creating or opening the channel, creating or opening the queue, publishing the identity in
one full write, the wait (anything but Ready), `fcntl`, the copy (`fdtofd_cpy` returns -1),
or one of the two `close` calls. -/
def SinkEnv.stepFailed (fuel : Nat) (w : SinkEnv) : Prop :=
  w.mkfifoChannel.mkfifoFailed = true ∨ w.openChannel.failed = true ∨
  w.mkfifoQueue.mkfifoFailed = true ∨ w.openQueue.failed = true ∨
  (write w.queue (get_id w.pid).bytes).1 ≠ .ok sizeof_ident_t ∨
  (∃ r ch log, receiver_wait_byte fuel w.channel = some (r, ch, log) ∧ r ≠ 1) ∨
  w.fcntlChannel.failed = true ∨
  (∃ r ch log out ch', receiver_wait_byte fuel w.channel = some (r, ch, log) ∧
    fdtofd_cpy fuel w.copyMalloc w.stdout ch = some (-1, out, ch')) ∨
  w.closeChannel.failed = true ∨ w.closeQueue.failed = true

/-- An environment in which every step of `receiver()` succeeds: process 4660, a channel
that is not ready at the first poll, then delivers the ready byte and three bytes. -/
def sinkEnvOk : SinkEnv :=
  { pid := 4660, pathMalloc := true, mkfifoChannel := .ok 0, openChannel := .ok 3,
    mkfifoQueue := .err .EEXIST, openQueue := .ok 4, queue := { sched := [], written := [] },
    channel := [.fail .EAGAIN, .data [1], .data [10, 20, 30]], fcntlChannel := .ok 0,
    copyMalloc := true, stdout := { sched := [], written := [] }, closeChannel := .ok 0,
    closeQueue := .ok 0 }

/-- An environment in which every step of `sender()` succeeds: the queue delivers the
identity of process 4660, the input file holds three bytes. -/
def sourceEnvOk : SourceEnv :=
  { openInput := .ok 3, mkfifoQueue := .ok 0, openQueue := .ok 4,
    queue := [.data [0x34, 0x12, 0, 0]], pathMalloc := true, openChannel := .ok 5,
    fcntlChannel := .ok 0, channel := { sched := [], written := [] }, copyMalloc := true,
    input := [.data [10, 20, 30]], closeChannel := .ok 0, closeInput := .ok 0,
    closeQueue := .ok 0 }

/-- Scenario B: the Sink starts and no Source ever appears (every read on the channel
returns 0). -/
def sinkEnvNoSource : SinkEnv := { sinkEnvOk with channel := [] }

/-- Standard output accepts 0 bytes, without an error, at the first write. -/
def sinkEnvShortWrite : SinkEnv :=
  { sinkEnvOk with stdout := { sched := [.accept 0], written := [] } }

/-- The channel accepts the ready byte, then 0 bytes, without an error, at the next write. -/
def sourceEnvShortWrite : SourceEnv :=
  { sourceEnvOk with channel := { sched := [.accept 1, .accept 0], written := [] } }

/-- The write on the queue is interrupted once; repeated, it would accept everything. -/
def sinkEnvQueueEintr : SinkEnv :=
  { sinkEnvOk with queue := { sched := [.fail .EINTR], written := [] } }

/-- The read on the queue is interrupted once; repeated, it would deliver the identity. -/
def sourceEnvQueueEintr : SourceEnv :=
  { sourceEnvOk with queue := [.fail .EINTR, .data [0x34, 0x12, 0, 0]] }

/-! # Theorems -/

/-! ## Byte Copier: system calls and loops -/

theorem toSsize_of_range (x : Int) (h0 : -(2 ^ 63 : Int) ≤ x) (h1 : x < 2 ^ 63) :
    toSsize x = x := by
  unfold toSsize
  omega

theorem write_sched_suffix (fd : OutFd) (buf : List Byte) :
    (write fd buf).2.sched <:+ fd.sched := by
  unfold write
  split
  · rename_i h; simp [h]
  · rename_i e rest h; simp [h]
  · rename_i n rest h; simp [h]

theorem read_err {fd fd' : InFd} {c : Nat} {e : Errno} (h : read fd c = (.err e, fd')) :
    fd = .fail e :: fd' := by
  unfold read at h
  split at h
  · simp at h
  · simp at h; obtain ⟨h1, h2⟩ := h; subst h1; subst h2; rfl
  · split at h <;> simp at h

theorem read_ok {fd fd' : InFd} {c : Nat} {bs : List Byte} (hc : 0 < c)
    (h : read fd c = (.ok bs, fd')) :
    stream fd = bs ++ stream fd' ∧ bs.length ≤ c ∧ (bs ≠ [] → InFd.size fd' < InFd.size fd) ∧
    ((∀ e ∈ fd, e.benign = true) → (∀ e ∈ fd', e.benign = true) ∧ (bs = [] → fd' = [] ∧ fd = [])) := by
  unfold read at h
  split at h
  · simp at h; obtain ⟨h1, h2⟩ := h; subst h1; subst h2; simp [stream]
  · simp at h
  · rename_i b rest
    split at h
    · rename_i hle
      simp at h; obtain ⟨h1, h2⟩ := h; subst h1; subst h2
      refine ⟨by simp [stream], hle, fun _ => by simp [InFd.size], ?_⟩
      intro hb
      refine ⟨fun e he => hb e (List.mem_cons_of_mem _ he), ?_⟩
      intro hnil
      have := hb (.data b) (List.mem_cons_self _ _)
      simp [ReadEv.benign, hnil] at this
    · rename_i hgt
      simp at h; obtain ⟨h1, h2⟩ := h; subst h1; subst h2
      have hlen : c < b.length := by omega
      refine ⟨by simp [stream, ← List.append_assoc], by simp [List.length_take], fun _ => by simp [InFd.size]; omega, ?_⟩
      intro hb
      refine ⟨?_, ?_⟩
      · intro e he
        rcases List.mem_cons.mp he with h1 | h1
        · subst h1
          simp [ReadEv.benign]
          omega
        · exact hb e (List.mem_cons_of_mem _ h1)
      · intro hnil
        have h0 : (List.take c b).length = 0 := by rw [hnil]; rfl
        rw [List.length_take] at h0
        omega

theorem buftofd_loop_spec (count : Nat) : ∀ (fuel : Nat) (fd : OutFd) (buf : List Byte)
    (tmp r : Int) (fd' : OutFd), buftofd_loop count fuel fd buf tmp = some (r, fd') →
    fd'.sched <:+ fd.sched ∧ ∃ k, k ≤ buf.length ∧ fd'.written = fd.written ++ buf.take k ∧
      ((r = -1 ∧ ∃ e ∈ fd.sched, e.hard = true) ∨
       (r = toSsize ((count : Int) - ((buf.length - k : Nat) : Int)) ∧
         (tmp ≠ 0 → (∀ e ∈ fd.sched, e ≠ .accept 0) → k = buf.length))) := by
  intro fuel
  induction fuel with
  | zero => intro fd buf tmp r fd' h; simp [buftofd_loop] at h
  | succ fuel ih =>
    intro fd buf tmp r fd' h
    rw [buftofd_loop] at h
    by_cases hc : buf.length ≠ 0 ∧ tmp ≠ 0
    · rw [if_pos hc] at h
      obtain ⟨sched, written⟩ := fd
      cases sched with
      | nil =>
        simp only [write] at h
        obtain ⟨hs, k, hk, hw, hr⟩ := ih _ _ _ _ _ h
        refine ⟨hs, buf.length, le_refl _, ?_, ?_⟩
        · simp at hk
          simpa [hk] using hw
        · rcases hr with ⟨_, e, he, _⟩ | ⟨hr, _⟩
          · simp at he
          · right
            refine ⟨?_, fun _ _ => rfl⟩
            simp at hk
            simpa [hk] using hr
      | cons ev rest =>
        cases ev with
        | fail e =>
          simp only [write] at h
          by_cases he : e ≠ .EINTR
          · rw [if_pos he] at h
            simp only [Option.some.injEq, Prod.mk.injEq] at h
            obtain ⟨h1, h2⟩ := h
            subst h1; subst h2
            refine ⟨by simp, 0, Nat.zero_le _, by simp, Or.inl ⟨rfl, .fail e, by simp, ?_⟩⟩
            simp [WriteEv.hard, he]
          · rw [if_neg he] at h
            obtain ⟨hs, k, hk, hw, hr⟩ := ih _ _ _ _ _ h
            refine ⟨?_, k, hk, hw, ?_⟩
            · exact hs.trans (List.suffix_cons _ _)
            · rcases hr with ⟨hr, e', he', hh⟩ | ⟨hr, hz⟩
              · exact Or.inl ⟨hr, e', List.mem_cons_of_mem _ he', hh⟩
              · refine Or.inr ⟨hr, fun _ hnz => hz (by decide) ?_⟩
                intro e' he'
                exact hnz e' (List.mem_cons_of_mem _ he')
        | accept n =>
          simp only [write] at h
          obtain ⟨hs, k, hk, hw, hr⟩ := ih _ _ _ _ _ h
          have hm : min n buf.length ≤ buf.length := Nat.min_le_right _ _
          have htake : List.take n buf = List.take (min n buf.length) buf := by
            rw [List.take_eq_take]
            simp
          refine ⟨hs.trans (List.suffix_cons _ _), min n buf.length + k, ?_, ?_, ?_⟩
          · simp only [List.length_drop] at hk
            omega
          · rw [hw, List.take_add, htake]
            simp
          · rcases hr with ⟨hr, e', he', hh⟩ | ⟨hr, hz⟩
            · exact Or.inl ⟨hr, e', List.mem_cons_of_mem _ he', hh⟩
            · right
              simp only [List.length_drop] at hr hz hk
              refine ⟨?_, ?_⟩
              · rw [hr]
                congr 2
                omega
              · intro _ hnz
                have hn0 : n ≠ 0 := by
                  intro h0
                  exact hnz (.accept n) (List.mem_cons_self _ _) (by rw [h0])
                have hk' := hz (by
                  have : 0 < min n buf.length := by
                    have := hc.1
                    omega
                  omega) (fun e' he' => hnz e' (List.mem_cons_of_mem _ he'))
                omega
    · rw [if_neg hc] at h
      simp only [Option.some.injEq, Prod.mk.injEq] at h
      obtain ⟨h1, h2⟩ := h
      subst h1; subst h2
      refine ⟨List.suffix_refl _, 0, Nat.zero_le _, by simp, Or.inr ⟨by simp, ?_⟩⟩
      intro ht _
      by_contra hne
      exact hc ⟨fun h0 => hne h0.symm, ht⟩

theorem buftofd_loop_total (count : Nat) : ∀ (fuel : Nat) (fd : OutFd) (buf : List Byte)
    (tmp : Int), (if buf = [] then 1 else fd.sched.length + 2) ≤ fuel →
    ∃ r, buftofd_loop count fuel fd buf tmp = some r := by
  intro fuel
  induction fuel with
  | zero =>
    intro fd buf tmp h
    split at h <;> omega
  | succ fuel ih =>
    intro fd buf tmp h
    rw [buftofd_loop]
    by_cases hc : buf.length ≠ 0 ∧ tmp ≠ 0
    · rw [if_pos hc]
      have hne : buf ≠ [] := by
        intro h0
        exact hc.1 (by simp [h0])
      rw [if_neg hne] at h
      obtain ⟨sched, written⟩ := fd
      cases sched with
      | nil =>
        simp only [write]
        apply ih
        simp at h ⊢
        omega
      | cons ev rest =>
        cases ev with
        | fail e =>
          simp only [write]
          by_cases he : e ≠ .EINTR
          · rw [if_pos he]; exact ⟨_, rfl⟩
          · rw [if_neg he]
            apply ih
            simp at h ⊢
            split <;> omega
        | accept n =>
          simp only [write]
          apply ih
          simp at h ⊢
          split <;> omega
    · rw [if_neg hc]; exact ⟨_, rfl⟩

theorem buftofd_cpy_spec {fuel : Nat} {fd fd' : OutFd} {buf : List Byte} {r : Int}
    (h : buftofd_cpy fuel fd buf = some (r, fd')) (hlen : buf.length ≤ FDTOFD_CPY_BUF_SIZE) :
    fd'.sched <:+ fd.sched ∧
      ((r = -1 ∧ ∃ e ∈ fd.sched, e.hard = true) ∨
       ∃ k, k ≤ buf.length ∧ r = (k : Int) ∧ fd'.written = fd.written ++ buf.take k ∧
         ((∀ e ∈ fd.sched, e ≠ .accept 0) → k = buf.length)) := by
  unfold buftofd_cpy at h
  obtain ⟨hs, k, hk, hw, hr⟩ := buftofd_loop_spec _ _ _ _ _ _ _ h
  refine ⟨hs, ?_⟩
  rcases hr with hr | ⟨hr, hz⟩
  · exact Or.inl hr
  · right
    refine ⟨k, hk, ?_, hw, hz (by decide)⟩
    rw [hr]
    unfold FDTOFD_CPY_BUF_SIZE at hlen
    rw [toSsize_of_range] <;> omega

theorem buftofd_cpy_total {fuel : Nat} (fd : OutFd) (buf : List Byte)
    (h : fd.sched.length + 2 ≤ fuel) : ∃ r, buftofd_cpy fuel fd buf = some r := by
  unfold buftofd_cpy
  apply buftofd_loop_total
  split <;> omega

theorem benign_not_hard {sched : List WriteEv} (h : ∀ e ∈ sched, e.benign = true) :
    ¬ ∃ e ∈ sched, e.hard = true := by
  rintro ⟨e, he, hh⟩
  have hb := h e he
  cases e with
  | accept n => simp [WriteEv.hard] at hh
  | fail er => simp [WriteEv.hard, WriteEv.benign] at hh hb; exact hh hb

theorem benign_no_zero {sched : List WriteEv} (h : ∀ e ∈ sched, e.benign = true) :
    ∀ e ∈ sched, e ≠ .accept 0 := by
  intro e he h0
  have hb := h e he
  rw [h0] at hb
  simp [WriteEv.benign] at hb

theorem fdtofd_loop_total (fuel : Nat) : ∀ (k : Nat) (fd_out : OutFd) (fd_in : InFd) (s : Int),
    InFd.size fd_in + 1 ≤ k → fd_out.sched.length + 2 ≤ fuel →
    ∃ r, fdtofd_loop fuel k fd_out fd_in s = some r := by
  intro k
  induction k with
  | zero => intro _ _ _ h; omega
  | succ k ih =>
    intro fd_out fd_in s hk hf
    rw [fdtofd_loop]
    rcases hrd : read fd_in FDTOFD_CPY_BUF_SIZE with ⟨res, fd_in'⟩
    cases res with
    | err e =>
      simp only
      have := read_err hrd
      subst this
      by_cases he : e = .EINTR
      · rw [if_pos he]
        apply ih _ _ _ _ hf
        simp [InFd.size] at hk
        omega
      · rw [if_neg he]; exact ⟨_, rfl⟩
    | ok bs =>
      simp only
      obtain ⟨_, hlen, hsize, _⟩ := read_ok (by decide) hrd
      by_cases hb : bs.length = 0
      · rw [if_pos hb]; exact ⟨_, rfl⟩
      · rw [if_neg hb]
        obtain ⟨⟨tmp, fd_out'⟩, hcp⟩ := buftofd_cpy_total fd_out bs hf
        rw [hcp]
        simp only
        obtain ⟨hs, _⟩ := buftofd_cpy_spec hcp hlen
        by_cases ht : tmp = -1
        · rw [if_pos ht]; exact ⟨_, rfl⟩
        · rw [if_neg ht]
          by_cases ht2 : tmp ≠ (bs.length : Int)
          · rw [if_pos ht2]; exact ⟨_, rfl⟩
          · rw [if_neg ht2]
            apply ih
            · have := hsize (by intro h0; exact hb (by simp [h0]))
              omega
            · have := hs.length_le
              omega

theorem fdtofd_loop_copied (fuel : Nat) : ∀ (k : Nat) (fd_out : OutFd) (fd_in : InFd) (s r : Int)
    (fd_out' : OutFd) (fd_in' : InFd),
    fdtofd_loop fuel k fd_out fd_in s = some (r, fd_out', fd_in') →
    fd_out'.sched <:+ fd_out.sched ∧
    (r ≠ -1 → (∀ e ∈ fd_out.sched, e ≠ .accept 0) →
      ∃ copied, fd_out'.written = fd_out.written ++ copied ∧
        stream fd_in = copied ++ stream fd_in') := by
  intro k
  induction k with
  | zero => intro _ _ _ _ _ _ h; simp [fdtofd_loop] at h
  | succ k ih =>
    intro fd_out fd_in s r fd_out' fd_in' h
    rw [fdtofd_loop] at h
    rcases hrd : read fd_in FDTOFD_CPY_BUF_SIZE with ⟨res, fd_in1⟩
    rw [hrd] at h
    cases res with
    | err e =>
      simp only at h
      have := read_err hrd
      subst this
      by_cases he : e = .EINTR
      · rw [if_pos he] at h
        obtain ⟨hs, hc⟩ := ih _ _ _ _ _ _ h
        exact ⟨hs, fun hr hz => by simpa [stream] using hc hr hz⟩
      · rw [if_neg he] at h
        simp only [Option.some.injEq, Prod.mk.injEq] at h
        obtain ⟨h1, h2, h3⟩ := h
        subst h1; subst h2
        exact ⟨List.suffix_refl _, fun hr => absurd rfl hr⟩
    | ok bs =>
      simp only at h
      obtain ⟨hst, hlen, _, _⟩ := read_ok (by decide) hrd
      by_cases hb : bs.length = 0
      · rw [if_pos hb] at h
        simp only [Option.some.injEq, Prod.mk.injEq] at h
        obtain ⟨h1, h2, h3⟩ := h
        subst h1; subst h2; subst h3
        refine ⟨List.suffix_refl _, fun _ _ => ⟨[], by simp, ?_⟩⟩
        have : bs = [] := List.length_eq_zero.mp hb
        simpa [this] using hst
      · rw [if_neg hb] at h
        rcases hcp : buftofd_cpy fuel fd_out bs with _ | ⟨tmp, fd_out1⟩
        · rw [hcp] at h; simp at h
        · rw [hcp] at h
          simp only at h
          obtain ⟨hs1, hres⟩ := buftofd_cpy_spec hcp hlen
          by_cases ht : tmp = -1
          · rw [if_pos ht] at h
            simp only [Option.some.injEq, Prod.mk.injEq] at h
            obtain ⟨h1, h2, h3⟩ := h
            subst h1; subst h2
            exact ⟨hs1, fun hr => absurd rfl hr⟩
          · rw [if_neg ht] at h
            rcases hres with ⟨hm1, _⟩ | ⟨j, hj, hrj, hwj, hzj⟩
            · exact absurd hm1 ht
            · by_cases ht2 : tmp ≠ (bs.length : Int)
              · rw [if_pos ht2] at h
                simp only [Option.some.injEq, Prod.mk.injEq] at h
                obtain ⟨h1, h2, h3⟩ := h
                subst h2; subst h3
                refine ⟨hs1, fun _ hz => ?_⟩
                have := hzj hz
                rw [hrj, this] at ht2
                exact absurd rfl ht2
              · rw [if_neg ht2] at h
                obtain ⟨hs, hc⟩ := ih _ _ _ _ _ _ h
                refine ⟨hs.trans hs1, fun hr hz => ?_⟩
                obtain ⟨copied, hw, hstr⟩ :=
                  hc hr (fun e he => hz e (hs1.subset he))
                have hjl : j = bs.length := by
                  have : tmp = (bs.length : Int) := not_not.mp ht2
                  rw [hrj] at this
                  exact_mod_cast this
                refine ⟨bs ++ copied, ?_, ?_⟩
                · rw [hw, hwj, hjl]; simp
                · rw [hst, hstr]; simp

theorem fdtofd_loop_clean (fuel : Nat) : ∀ (k : Nat) (fd_out : OutFd) (fd_in : InFd) (s r : Int)
    (fd_out' : OutFd) (fd_in' : InFd),
    (∀ e ∈ fd_in, e.benign = true) → (∀ e ∈ fd_out.sched, e.benign = true) →
    fdtofd_loop fuel k fd_out fd_in s = some (r, fd_out', fd_in') →
    fd_out'.written = fd_out.written ++ stream fd_in ∧ fd_in' = [] ∧
    (0 ≤ s → s + ((stream fd_in).length : Int) < 2 ^ 63 →
      r = s + ((stream fd_in).length : Int)) := by
  intro k
  induction k with
  | zero => intro _ _ _ _ _ _ _ _ h; simp [fdtofd_loop] at h
  | succ k ih =>
    intro fd_out fd_in s r fd_out' fd_in' hin hout h
    rw [fdtofd_loop] at h
    rcases hrd : read fd_in FDTOFD_CPY_BUF_SIZE with ⟨res, fd_in1⟩
    rw [hrd] at h
    cases res with
    | err e =>
      simp only at h
      have := read_err hrd
      subst this
      have he : e = .EINTR := by
        have := hin (.fail e) (List.mem_cons_self _ _)
        simpa [ReadEv.benign] using this
      rw [if_pos he] at h
      have := ih _ _ _ _ _ _ (fun e' he' => hin e' (List.mem_cons_of_mem _ he')) hout h
      simpa [stream] using this
    | ok bs =>
      simp only at h
      obtain ⟨hst, hlen, _, hcl⟩ := read_ok (by decide) hrd
      obtain ⟨hin1, hnil⟩ := hcl hin
      by_cases hb : bs.length = 0
      · rw [if_pos hb] at h
        simp only [Option.some.injEq, Prod.mk.injEq] at h
        obtain ⟨h1, h2, h3⟩ := h
        subst h1; subst h2; subst h3
        obtain ⟨h4, h5⟩ := hnil (List.length_eq_zero.mp hb)
        subst h5
        simp [stream, h4]
      · rw [if_neg hb] at h
        rcases hcp : buftofd_cpy fuel fd_out bs with _ | ⟨tmp, fd_out1⟩
        · rw [hcp] at h; simp at h
        · rw [hcp] at h
          simp only at h
          obtain ⟨hs1, hres⟩ := buftofd_cpy_spec hcp hlen
          rcases hres with ⟨_, hh⟩ | ⟨j, hj, hrj, hwj, hzj⟩
          · exact absurd hh (benign_not_hard hout)
          · have hjl : j = bs.length := hzj (benign_no_zero hout)
            subst hjl
            have ht : ¬ tmp = -1 := by rw [hrj]; omega
            have ht2 : ¬ tmp ≠ (bs.length : Int) := by rw [hrj]; simp
            rw [if_neg ht, if_neg ht2] at h
            obtain ⟨hw, hnil', hr⟩ :=
              ih _ _ _ _ _ _ hin1 (fun e he => hout e (hs1.subset he)) h
            refine ⟨?_, hnil', ?_⟩
            · rw [hw, hwj, hst]; simp
            · intro hs0 hbound
              rw [hst] at hbound ⊢
              simp only [List.length_append, Nat.cast_add] at hbound ⊢
              have hs' : toSsize (s + tmp) = s + tmp := by
                rw [hrj]
                apply toSsize_of_range <;> omega
              rw [hs'] at hr
              rw [hr (by rw [hrj]; omega) (by rw [hrj]; omega), hrj]
              omega

/-! ## Byte Copier: claims -/

/-- C1. Content fidelity of the Byte Copier: whatever the source stream, when every read
result is an `EINTR` failure or a non-empty chunk (then end of stream) and every write result
is an `EINTR` failure or the acceptance of at least one byte, `fdtofd_cpy` returns, has read
the source to its end, and the bytes accepted by the destination during the copy are, in
order, exactly the source stream. -/
theorem C1_copy_content_fidelity (fuel : Nat) (fd_out : OutFd) (fd_in : InFd)
    (hin : ∀ e ∈ fd_in, e.benign = true) (hout : ∀ e ∈ fd_out.sched, e.benign = true)
    (hfuel : InFd.size fd_in + 1 ≤ fuel ∧ fd_out.sched.length + 2 ≤ fuel) :
    ∃ r fd_out', fdtofd_cpy fuel true fd_out fd_in = some (r, fd_out', []) ∧
      fd_out'.written = fd_out.written ++ stream fd_in := by
  obtain ⟨⟨r, fd_out', fd_in'⟩, h⟩ := fdtofd_loop_total fuel fuel fd_out fd_in 0 hfuel.1 hfuel.2
  obtain ⟨hw, hnil, _⟩ := fdtofd_loop_clean fuel fuel fd_out fd_in 0 r fd_out' fd_in' hin hout h
  subst hnil
  exact ⟨r, fd_out', by simpa [fdtofd_cpy] using h, hw⟩

/-- Witness of C1: a six-byte stream read in three chunks with interrupted reads, written
with an interrupted write and two short writes. -/
theorem C1_copy_content_fidelity_witness :
    ∃ r fd_out', fdtofd_cpy 12 true { sched := [.fail .EINTR, .accept 1, .accept 5], written := [] }
        [.fail .EINTR, .data [1, 2, 3], .data [4], .fail .EINTR, .data [5, 6]]
        = some (r, fd_out', []) ∧
      fd_out'.written = [] ++ stream [.fail .EINTR, .data [1, 2, 3], .data [4], .fail .EINTR,
        .data [5, 6]] :=
  C1_copy_content_fidelity 12 { sched := [.fail .EINTR, .accept 1, .accept 5], written := [] }
    [.fail .EINTR, .data [1, 2, 3], .data [4], .fail .EINTR, .data [5, 6]]
    (by decide) (by decide) (by decide)

/-- C2. Count under interruption: under the same schedules (interrupted reads and writes,
every other write accepting at least one byte, no other error), for a source stream shorter
than `2^63` bytes, `fdtofd_cpy` returns the length of the source stream, whatever the
interruptions. -/
theorem C2_copy_count_under_interruption (fuel : Nat) (fd_out : OutFd) (fd_in : InFd)
    (hin : ∀ e ∈ fd_in, e.benign = true) (hout : ∀ e ∈ fd_out.sched, e.benign = true)
    (hlen : (stream fd_in).length < 2 ^ 63)
    (hfuel : InFd.size fd_in + 1 ≤ fuel ∧ fd_out.sched.length + 2 ≤ fuel) :
    ∃ fd_out', fdtofd_cpy fuel true fd_out fd_in
      = some (((stream fd_in).length : Int), fd_out', []) := by
  obtain ⟨⟨r, fd_out', fd_in'⟩, h⟩ := fdtofd_loop_total fuel fuel fd_out fd_in 0 hfuel.1 hfuel.2
  obtain ⟨_, hnil, hr⟩ := fdtofd_loop_clean fuel fuel fd_out fd_in 0 r fd_out' fd_in' hin hout h
  subst hnil
  have hr' := hr (le_refl _) (by
    have : ((stream fd_in).length : Int) < 2 ^ 63 := by exact_mod_cast hlen
    omega)
  rw [zero_add] at hr'
  subst hr'
  exact ⟨fd_out', by simpa [fdtofd_cpy] using h⟩

/-- Witness of C2: the copy of C1's witness returns 6. -/
theorem C2_copy_count_under_interruption_witness :
    ∃ fd_out', fdtofd_cpy 12 true { sched := [.fail .EINTR, .accept 1, .accept 5], written := [] }
        [.fail .EINTR, .data [1, 2, 3], .data [4], .fail .EINTR, .data [5, 6]]
      = some (((stream [.fail .EINTR, .data [1, 2, 3], .data [4], .fail .EINTR,
          .data [5, 6]]).length : Int), fd_out', []) :=
  C2_copy_count_under_interruption 12
    { sched := [.fail .EINTR, .accept 1, .accept 5], written := [] }
    [.fail .EINTR, .data [1, 2, 3], .data [4], .fail .EINTR, .data [5, 6]]
    (by decide) (by decide) (by decide) (by decide)

/-! ## Backoff Waiter -/

theorem FIFO_MAX_SLEEP_US_eq : FIFO_MAX_SLEEP_US = 2 ^ 23 := by decide

theorem FIFO_MIN_SLEEP_US_eq : FIFO_MIN_SLEEP_US = 2 ^ 3 := by decide

theorem read_size_le (fd : InFd) (c : Nat) :
    InFd.size (read fd c).2 ≤ InFd.size fd := by
  unfold read
  split
  · simp
  · simp [InFd.size]
  · split
    · simp [InFd.size]
    · simp [InFd.size]

theorem read_idle {fd : InFd} (h : ∀ e ∈ fd, e.idle = true) :
    (read fd 1 = (.ok [], fd.tail) ∨ read fd 1 = (.err .EAGAIN, fd.tail)) := by
  cases fd with
  | nil => left; rfl
  | cons ev rest =>
    have hev := h ev (List.mem_cons_self _ _)
    cases ev with
    | data bs =>
      simp [ReadEv.idle] at hev
      subst hev
      left; rfl
    | fail e =>
      simp [ReadEv.idle] at hev
      subst hev
      right; rfl

theorem wait_idle_step (fuel delay : Nat) (fd : InFd) (log : WaitLog)
    (h : ∀ e ∈ fd, e.idle = true) (hd : delay ≤ FIFO_MAX_SLEEP_US) :
    wait_loop (fuel + 1) delay fd log =
      wait_loop fuel (toUnsigned (delay * 2)) fd.tail
        { reads := log.reads + 1, sleeps := log.sleeps ++ [delay] } := by
  rw [wait_loop, if_pos hd]
  rcases read_idle h with hr | hr <;> rw [hr] <;> simp

theorem wait_idle_run : ∀ (n fuel : Nat) (fd : InFd) (log : WaitLog), n ≤ 21 → n + 1 ≤ fuel →
    (∀ e ∈ fd, e.idle = true) →
    wait_loop fuel (2 ^ (24 - n)) fd log =
      some (0, fd.drop n,
        { reads := log.reads + n,
          sleeps := log.sleeps ++ (List.range n).map (fun i => 2 ^ (24 - n + i)) }) := by
  intro n
  induction n with
  | zero =>
    intro fuel fd log _ hf _
    obtain ⟨f, rfl⟩ : ∃ f, fuel = f + 1 := ⟨fuel - 1, by omega⟩
    rw [wait_loop, if_neg (by rw [FIFO_MAX_SLEEP_US_eq]; norm_num)]
    simp
  | succ n ih =>
    intro fuel fd log hn hf hidle
    obtain ⟨f, rfl⟩ : ∃ f, fuel = f + 1 := ⟨fuel - 1, by omega⟩
    have hpow : (2 : Nat) ^ (24 - (n + 1)) * 2 = 2 ^ (24 - n) := by
      rw [← pow_succ]
      congr 1
      omega
    have hle : (2 : Nat) ^ (24 - (n + 1)) ≤ FIFO_MAX_SLEEP_US := by
      rw [FIFO_MAX_SLEEP_US_eq]
      exact Nat.pow_le_pow_right (by decide) (by omega)
    have hlt : (2 : Nat) ^ (24 - n) < 2 ^ 32 :=
      Nat.pow_lt_pow_right (by decide) (by omega)
    rw [wait_idle_step _ _ _ _ hidle hle, hpow]
    have hun : toUnsigned (2 ^ (24 - n)) = 2 ^ (24 - n) := by
      unfold toUnsigned
      exact Nat.mod_eq_of_lt hlt
    rw [hun, ih f fd.tail _ (by omega) (by omega)
      (fun e he => hidle e (List.mem_of_mem_tail he))]
    have hrange : (List.range (n + 1)).map (fun i => 2 ^ (24 - (n + 1) + i)) =
        2 ^ (24 - (n + 1)) :: (List.range n).map (fun i => 2 ^ (24 - n + i)) := by
      rw [List.range_succ_eq_map, List.map_cons, List.map_map]
      congr 1
      apply List.map_congr_left
      intro i _
      simp only [Function.comp]
      congr 1
      omega
    rw [hrange]
    simp [Nat.add_assoc, Nat.add_comm 1 n]

theorem wait_loop_size : ∀ (fuel delay : Nat) (fd : InFd) (log : WaitLog) (r : Int) (fd' : InFd)
    (log' : WaitLog), wait_loop fuel delay fd log = some (r, fd', log') →
    InFd.size fd' ≤ InFd.size fd := by
  intro fuel
  induction fuel with
  | zero => intro _ _ _ _ _ _ h; simp [wait_loop] at h
  | succ fuel ih =>
    intro delay fd log r fd' log' h
    rw [wait_loop] at h
    have hsz := read_size_le fd 1
    split at h
    · rcases hrd : read fd 1 with ⟨res, fd1⟩
      rw [hrd] at h hsz
      cases res with
      | ok bs =>
        simp only at h hsz
        split at h
        · simp only [Option.some.injEq, Prod.mk.injEq] at h
          obtain ⟨_, h2, _⟩ := h
          subst h2; exact hsz
        · exact le_trans (ih _ _ _ _ _ _ h) hsz
      | err e =>
        simp only at h hsz
        split at h
        · simp only [Option.some.injEq, Prod.mk.injEq] at h
          obtain ⟨_, h2, _⟩ := h
          subst h2; exact hsz
        · exact le_trans (ih _ _ _ _ _ _ h) hsz
    · simp only [Option.some.injEq, Prod.mk.injEq] at h
      obtain ⟨_, h2, _⟩ := h
      subst h2; exact le_refl _

theorem wait_loop_total : ∀ (n fuel delay : Nat) (fd : InFd) (log : WaitLog), n + 1 ≤ fuel →
    0 < delay → FIFO_MAX_SLEEP_US < delay * 2 ^ n →
    ∃ r, wait_loop fuel delay fd log = some r := by
  intro n
  induction n with
  | zero =>
    intro fuel delay fd log hf _ hd
    obtain ⟨f, rfl⟩ : ∃ f, fuel = f + 1 := ⟨fuel - 1, by omega⟩
    rw [wait_loop, if_neg (by omega)]
    exact ⟨_, rfl⟩
  | succ n ih =>
    intro fuel delay fd log hf hpos hd
    obtain ⟨f, rfl⟩ : ∃ f, fuel = f + 1 := ⟨fuel - 1, by omega⟩
    rw [wait_loop]
    by_cases hle : delay ≤ FIFO_MAX_SLEEP_US
    · rw [if_pos hle]
      have hun : toUnsigned (delay * 2) = delay * 2 := by
        unfold toUnsigned
        rw [FIFO_MAX_SLEEP_US_eq] at hle
        apply Nat.mod_eq_of_lt
        omega
      have hnext : ∀ fd1 log1, ∃ r, wait_loop f (toUnsigned (delay * 2)) fd1 log1 = some r := by
        intro fd1 log1
        rw [hun]
        apply ih _ _ _ _ (by omega) (by omega)
        rw [pow_succ] at hd
        calc FIFO_MAX_SLEEP_US < delay * (2 ^ n * 2) := hd
          _ = delay * 2 * 2 ^ n := by ring
      rcases read fd 1 with ⟨res, fd1⟩
      cases res with
      | ok bs =>
        simp only
        split
        · exact ⟨_, rfl⟩
        · exact hnext _ _
      | err e =>
        simp only
        split
        · exact ⟨_, rfl⟩
        · exact hnext _ _
    · rw [if_neg hle]
      exact ⟨_, rfl⟩

theorem receiver_wait_byte_total (fuel : Nat) (fd : InFd) (hf : 22 ≤ fuel) :
    ∃ r, receiver_wait_byte fuel fd = some r := by
  unfold receiver_wait_byte
  apply wait_loop_total 21 _ _ _ _ hf (by decide)
  decide

theorem receiver_wait_byte_idle (fuel : Nat) (fd : InFd) (hf : 22 ≤ fuel)
    (hidle : ∀ e ∈ fd, e.idle = true) :
    receiver_wait_byte fuel fd =
      some (0, fd.drop 21, { reads := 21, sleeps := (List.range 21).map (fun i => 2 ^ (3 + i)) }) := by
  unfold receiver_wait_byte
  rw [FIFO_MIN_SLEEP_US_eq]
  have := wait_idle_run 21 fuel fd { reads := 0, sleeps := [] } (le_refl _) hf hidle
  simpa using this

/-- C3. Bounded termination of the Backoff Waiter: when every read on the channel fails with
`EAGAIN` or returns 0 bytes, `receiver_wait_byte` returns 0 (Dead) after exactly 21 reads,
having slept 8, 16, ..., `2^23` microseconds: the first delay is `FIFO_MIN_SLEEP_US`, each
delay is twice the one before, none exceeds `FIFO_MAX_SLEEP_US`, their sum is
`2^24 - 8 = 16777208`, and no doubling of the `unsigned` delay wraps around. -/
theorem C3_backoff_bounded_termination (fuel : Nat) (fd : InFd) (hfuel : 22 ≤ fuel)
    (hidle : ∀ e ∈ fd, e.idle = true) :
    ∃ fd' log, receiver_wait_byte fuel fd = some (0, fd', log) ∧ log.reads = 21 ∧
      log.sleeps = (List.range 21).map (fun i => FIFO_MIN_SLEEP_US * 2 ^ i) ∧
      log.sleeps.length = 21 ∧
      log.sleeps.getLast? = some FIFO_MAX_SLEEP_US ∧
      (∀ d ∈ log.sleeps, d ≤ FIFO_MAX_SLEEP_US ∧ toUnsigned (d * 2) = d * 2) ∧
      log.sleeps.sum = 2 ^ 24 - 8 ∧ log.sleeps.sum = 16777208 := by
  refine ⟨_, _, receiver_wait_byte_idle fuel fd hfuel hidle, rfl, ?_, ?_, ?_, ?_, ?_, ?_⟩ <;>
    decide

/-- Witness of C3: a channel whose first polls meet `EAGAIN` or 0 bytes and that then stays
without a writer. -/
theorem C3_backoff_bounded_termination_witness :
    ∃ fd' log, receiver_wait_byte 22 [.fail .EAGAIN, .data [], .fail .EAGAIN] = some (0, fd', log) ∧
      log.reads = 21 ∧
      log.sleeps = (List.range 21).map (fun i => FIFO_MIN_SLEEP_US * 2 ^ i) ∧
      log.sleeps.length = 21 ∧
      log.sleeps.getLast? = some FIFO_MAX_SLEEP_US ∧
      (∀ d ∈ log.sleeps, d ≤ FIFO_MAX_SLEEP_US ∧ toUnsigned (d * 2) = d * 2) ∧
      log.sleeps.sum = 2 ^ 24 - 8 ∧ log.sleeps.sum = 16777208 :=
  C3_backoff_bounded_termination 22 [.fail .EAGAIN, .data [], .fail .EAGAIN] (by decide)
    (by decide)

/-- C9, as stated, fails: on a channel that never becomes ready the waiter returns Dead
after sleeping 16777208 microseconds in total, which is not less than 9000000. -/
theorem C9_backoff_bound_counterexample :
    ∃ fd' log, receiver_wait_byte 22 [] = some (0, fd', log) ∧ ¬ (log.sleeps.sum < 9000000) :=
  ⟨_, _, rfl, by decide⟩

/-- C9, amended. With the reference constants, the total time `receiver_wait_byte` sleeps
before reporting Dead when no ready byte ever arrives is 16777208 microseconds (about 16.8
seconds, less than 17000000 microseconds, twice `FIFO_MAX_SLEEP_US` minus
`FIFO_MIN_SLEEP_US`); the longest single delay is `FIFO_MAX_SLEEP_US`, about 8.4 seconds. -/
theorem C9_backoff_bound_amended (fuel : Nat) (fd : InFd) (hfuel : 22 ≤ fuel)
    (hidle : ∀ e ∈ fd, e.idle = true) :
    ∃ fd' log, receiver_wait_byte fuel fd = some (0, fd', log) ∧
      log.sleeps.sum = 16777208 ∧ log.sleeps.sum < 17000000 ∧
      log.sleeps.sum = 2 * FIFO_MAX_SLEEP_US - FIFO_MIN_SLEEP_US ∧
      (∀ d ∈ log.sleeps, d ≤ FIFO_MAX_SLEEP_US) ∧ FIFO_MAX_SLEEP_US = 8388608 := by
  refine ⟨_, _, receiver_wait_byte_idle fuel fd hfuel hidle, ?_, ?_, ?_, ?_, ?_⟩ <;> decide

/-- Witness of C9 (amended): a channel that no process ever writes to. -/
theorem C9_backoff_bound_amended_witness :
    ∃ fd' log, receiver_wait_byte 30 [] = some (0, fd', log) ∧
      log.sleeps.sum = 16777208 ∧ log.sleeps.sum < 17000000 ∧
      log.sleeps.sum = 2 * FIFO_MAX_SLEEP_US - FIFO_MIN_SLEEP_US ∧
      (∀ d ∈ log.sleeps, d ≤ FIFO_MAX_SLEEP_US) ∧ FIFO_MAX_SLEEP_US = 8388608 :=
  C9_backoff_bound_amended 30 [] (by decide) (by decide)

/-! ## Channel path -/

theorem digitChar_hex : ∀ d : Fin 16, hexVal (Nat.digitChar d.val) = d.val ∧
    isLowerHex (Nat.digitChar d.val) = true ∧ (Nat.digitChar d.val = '0' → d.val = 0) := by
  decide

theorem hexValue_snoc (L : List Char) (c : Char) :
    hexValue (L ++ [c]) = 16 * hexValue L + hexVal c := by
  simp [hexValue, List.foldl_append]

theorem hexLoop_spec : ∀ (fuel n : Nat) (acc : List Char), 0 < fuel → n < 16 ^ fuel →
    ∃ L, hexLoop fuel n acc = L ++ acc ∧ L ≠ [] ∧ (∀ c ∈ L, isLowerHex c = true) ∧
      hexValue L = n ∧ (L.head? = some '0' → L = ['0']) ∧ (L = ['0'] → n = 0) ∧
      (∀ m, 0 < m → n < 16 ^ m → L.length ≤ m) := by
  intro fuel
  induction fuel with
  | zero => intro _ _ h; omega
  | succ fuel ih =>
    intro n acc _ hn
    rw [hexLoop]
    by_cases h16 : n < 16
    · rw [if_pos h16]
      obtain ⟨h1, h2, h3⟩ := digitChar_hex ⟨n, h16⟩
      simp only at h1 h2 h3
      refine ⟨[Nat.digitChar n], rfl, by simp, by simpa using h2, ?_, ?_, ?_, ?_⟩
      · simp [hexValue, h1]
      · intro h
        simp at h
        simp [h]
      · intro h
        simp at h
        exact h3 h
      · intro m hm _
        simpa using hm
    · rw [if_neg h16]
      have hfuel : 0 < fuel := by
        rcases Nat.eq_zero_or_pos fuel with h0 | h0
        · subst h0; simp at hn; omega
        · exact h0
      have hdiv : n / 16 < 16 ^ fuel := by
        rw [pow_succ] at hn
        exact Nat.div_lt_of_lt_mul (by rw [Nat.mul_comm]; exact hn)
      obtain ⟨L, hL, hne, hhex, hval, hhead, hzero, hlen⟩ :=
        ih (n / 16) (Nat.digitChar (n % 16) :: acc) hfuel hdiv
      obtain ⟨h1, h2, _⟩ := digitChar_hex ⟨n % 16, Nat.mod_lt _ (by decide)⟩
      simp only at h1 h2
      have hq : n / 16 ≠ 0 := by
        intro h0
        have := Nat.div_add_mod n 16
        omega
      have hhd : (L ++ [Nat.digitChar (n % 16)]).head? = L.head? := by
        cases L with
        | nil => exact absurd rfl hne
        | cons a t => rfl
      refine ⟨L ++ [Nat.digitChar (n % 16)], by rw [hL]; simp, by simp, ?_, ?_, ?_, ?_, ?_⟩
      · intro c hc
        rcases List.mem_append.mp hc with h | h
        · exact hhex c h
        · simp at h; rw [h]; exact h2
      · rw [hexValue_snoc, hval, h1]
        exact Nat.div_add_mod n 16
      · intro h
        rw [hhd] at h
        exact absurd (hzero (hhead h)) hq
      · intro h
        have hl := congrArg List.length h
        simp at hl
        exact absurd hl hne
      · intro m hm hnm
        have hm2 : 2 ≤ m := by
          by_contra hlt
          have : m = 1 := by omega
          subst this
          simp at hnm
          exact h16 hnm
        obtain ⟨m', rfl⟩ : ∃ m', m = m' + 1 := ⟨m - 1, by omega⟩
        have := hlen m' (by omega) (by
          rw [pow_succ] at hnm
          exact Nat.div_lt_of_lt_mul (by rw [Nat.mul_comm]; exact hnm))
        simp
        omega

theorem toUintmax_lt (x : Int) : toUintmax x < 16 ^ 16 := by
  unfold toUintmax
  have h1 : 0 ≤ x % 2 ^ 64 := Int.emod_nonneg _ (by norm_num)
  have h2 : x % 2 ^ 64 < 2 ^ 64 := Int.emod_lt_of_pos _ (by norm_num)
  have : ((x % 2 ^ 64).toNat : Int) < ((16 ^ 16 : Nat) : Int) := by
    rw [Int.toNat_of_nonneg h1]
    norm_num at h2 ⊢
    exact h2
  exact_mod_cast this

theorem hexDigits_spec (x : Int) :
    hexDigits (toUintmax x) ≠ [] ∧ (∀ c ∈ hexDigits (toUintmax x), isLowerHex c = true) ∧
    hexValue (hexDigits (toUintmax x)) = toUintmax x ∧
    ((hexDigits (toUintmax x)).head? = some '0' → hexDigits (toUintmax x) = ['0']) ∧
    (∀ m, 0 < m → toUintmax x < 16 ^ m → (hexDigits (toUintmax x)).length ≤ m) := by
  obtain ⟨L, hL, hne, hhex, hval, hhead, _, hlen⟩ :=
    hexLoop_spec 16 (toUintmax x) [] (by decide) (toUintmax_lt x)
  have : hexDigits (toUintmax x) = L := by
    unfold hexDigits
    rw [hL]
    simp
  rw [this]
  exact ⟨hne, hhex, hval, hhead, hlen⟩

theorem toUintmax_inj {a b : Int} (ha : -(2 ^ 31 : Int) ≤ a ∧ a < 2 ^ 31)
    (hb : -(2 ^ 31 : Int) ≤ b ∧ b < 2 ^ 31) (h : toUintmax a = toUintmax b) : a = b := by
  unfold toUintmax at h
  have h1 : 0 ≤ a % 2 ^ 64 := Int.emod_nonneg _ (by norm_num)
  have h2 : 0 ≤ b % 2 ^ 64 := Int.emod_nonneg _ (by norm_num)
  have h3 : a % 2 ^ 64 = b % 2 ^ 64 := by
    have := congrArg (fun n : Nat => (n : Int)) h
    simp only [Int.toNat_of_nonneg h1, Int.toNat_of_nonneg h2] at this
    exact this
  omega

theorem get_channel_path_safe (pid : Int) (h0 : 0 ≤ pid) (h1 : pid < 2 ^ 31) :
    (get_channel_path false true (get_id pid)).safe = true ∧
    (get_channel_path false true (get_id pid)).text =
      some (FIFO_CHANNEL_PATH_PREFIX ++ hexDigits (toUintmax pid)) := by
  have hlt : toUintmax pid < 16 ^ 8 := by
    unfold toUintmax
    have : ((pid % 2 ^ 64).toNat : Int) < ((16 ^ 8 : Nat) : Int) := by
      rw [Int.toNat_of_nonneg (Int.emod_nonneg _ (by norm_num))]
      norm_num
      omega
    exact_mod_cast this
  have hlen := (hexDigits_spec pid).2.2.2.2 8 (by decide) hlt
  refine ⟨?_, rfl⟩
  simp only [get_channel_path, get_id, PathCall.safe, FIFO_CHANNEL_PATH_MAX,
    FIFO_CHANNEL_PATH_PREFIX, sizeof_ident_t]
  simp
  omega

/-- C6. Channel path encoding: for every identity `get_channel_path` formats the prefix
`channel.` followed by the digits of the pid converted to `uintmax_t` (64 bits), digits that
are lowercase hexadecimal (`0`-`9`, `a`-`f`), denote that value, and have no leading zero
and no padding (a leading `0` occurs only in the one-digit string `0`); and two identities
(4-byte signed pids) with the same formatted path are equal. -/
theorem C6_channel_path_encoding :
    (∀ id : ident_t, ∃ ds, (get_channel_path false true id).text
        = some (['c', 'h', 'a', 'n', 'n', 'e', 'l', '.'] ++ ds) ∧
      ds ≠ [] ∧ (∀ c ∈ ds, isLowerHex c = true) ∧ hexValue ds = toUintmax id.pid ∧
      (ds.head? = some '0' → ds = ['0'])) ∧
    (∀ id1 id2 : ident_t, id1.inRange → id2.inRange →
      (get_channel_path false true id1).text = (get_channel_path false true id2).text →
      id1 = id2) := by
  constructor
  · intro id
    obtain ⟨h1, h2, h3, h4, _⟩ := hexDigits_spec id.pid
    exact ⟨hexDigits (toUintmax id.pid), rfl, h1, h2, h3, h4⟩
  · intro id1 id2 hr1 hr2 h
    simp only [get_channel_path, Bool.false_eq_true, if_false, Option.some.injEq,
      List.append_cancel_left_eq] at h
    have hv := congrArg hexValue h
    rw [(hexDigits_spec id1.pid).2.2.1, (hexDigits_spec id2.pid).2.2.1] at hv
    have := toUintmax_inj hr1 hr2 hv
    cases id1; cases id2
    simp_all

/-- Witness of C6: processes 4660 and 4661 get different paths, and a negative pid and a
positive one do too. -/
theorem C6_channel_path_encoding_witness :
    (get_channel_path false true { pid := 4660 }).text
      ≠ (get_channel_path false true { pid := 4661 }).text ∧
    (get_channel_path false true { pid := -1 }).text
      ≠ (get_channel_path false true { pid := 1 }).text :=
  ⟨fun h => absurd (C6_channel_path_encoding.2 { pid := 4660 } { pid := 4661 } (by decide)
      (by decide) h) (by decide),
   fun h => absurd (C6_channel_path_encoding.2 { pid := -1 } { pid := 1 } (by decide)
      (by decide) h) (by decide)⟩

/-! ## The roles -/

theorem fdtofd_cpy_total (fuel : Nat) (m : Bool) (fd_out : OutFd) (fd_in : InFd)
    (h1 : InFd.size fd_in + 1 ≤ fuel) (h2 : fd_out.sched.length + 2 ≤ fuel) :
    ∃ r, fdtofd_cpy fuel m fd_out fd_in = some r := by
  unfold fdtofd_cpy
  split
  · exact ⟨_, rfl⟩
  · exact fdtofd_loop_total fuel fuel fd_out fd_in 0 h1 h2

theorem init_channel_failed (r : Ret) : init_channel r = -1 ↔ r.mkfifoFailed = true := by
  cases r with
  | ok n => simp [init_channel, Ret.mkfifoFailed]
  | err e => by_cases he : e = .EEXIST <;> simp [init_channel, Ret.mkfifoFailed, he]

theorem val_failed (r : Ret) : r.val = -1 ↔ r.failed = true := by
  cases r with
  | ok n => simp [Ret.val, Ret.failed]
  | err e => simp [Ret.val, Ret.failed]

theorem mkfifo_failed (r : Ret) :
    (r.val = -1 ∧ r.errnoIs .EEXIST = false) ↔ r.mkfifoFailed = true := by
  cases r with
  | ok n => simp [Ret.val, Ret.mkfifoFailed]
  | err e => simp [Ret.val, Ret.mkfifoFailed, Ret.errnoIs]

theorem val_ne_size (r : Ret) : r.val ≠ (sizeof_ident_t : Int) ↔ r ≠ .ok sizeof_ident_t := by
  cases r with
  | ok n => simp [Ret.val]
  | err e => simp [Ret.val, sizeof_ident_t]

theorem sink_stepFailed_iff {fuel : Nat} {w : SinkEnv} {wr : Ret} {q : OutFd} {ready copied : Int}
    {ch ch' : InFd} {log : WaitLog} {out : OutFd}
    (hq : write w.queue (get_id w.pid).bytes = (wr, q))
    (hwait : receiver_wait_byte fuel w.channel = some (ready, ch, log))
    (hcopy : fdtofd_cpy fuel w.copyMalloc w.stdout ch = some (copied, out, ch')) :
    w.stepFailed fuel ↔
      (init_channel w.mkfifoChannel = -1 ∨ w.openChannel.val = -1 ∨
        (w.mkfifoQueue.val = -1 ∧ w.mkfifoQueue.errnoIs .EEXIST = false) ∨
        w.openQueue.val = -1 ∨ wr.val ≠ (sizeof_ident_t : Int) ∨ ready ≠ 1 ∨
        w.fcntlChannel.val = -1 ∨ copied = -1 ∨ w.closeChannel.val = -1 ∨
        w.closeQueue.val = -1) := by
  have hwaitf : (∃ r ch1 log1, receiver_wait_byte fuel w.channel = some (r, ch1, log1) ∧ r ≠ 1) ↔
      ready ≠ 1 := by
    rw [hwait]
    constructor
    · rintro ⟨r, ch1, log1, h, hr⟩
      simp only [Option.some.injEq, Prod.mk.injEq] at h
      rw [h.1]; exact hr
    · intro h; exact ⟨ready, ch, log, rfl, h⟩
  have hcopyf : (∃ r ch1 log1 out1 ch2, receiver_wait_byte fuel w.channel = some (r, ch1, log1) ∧
      fdtofd_cpy fuel w.copyMalloc w.stdout ch1 = some (-1, out1, ch2)) ↔ copied = -1 := by
    rw [hwait]
    constructor
    · rintro ⟨r, ch1, log1, out1, ch2, h, hc⟩
      simp only [Option.some.injEq, Prod.mk.injEq] at h
      rw [← h.2.1, hcopy] at hc
      simp only [Option.some.injEq, Prod.mk.injEq] at hc
      exact hc.1
    · intro h
      exact ⟨ready, ch, log, out, ch', rfl, by rw [hcopy, h]⟩
  unfold SinkEnv.stepFailed
  rw [hq, hwaitf, hcopyf, init_channel_failed, val_failed, mkfifo_failed, val_failed,
    val_ne_size, val_failed, val_failed, val_failed]

theorem sink_fail_case (D : Prop) (hD : D) (tr : List Event) (path : List Char) (q : OutFd)
    (ch : InFd) (out : OutFd) (ready : Int) (ch0 : InFd) (log0 : WaitLog) :
    ∃ run p, Outcome.done (SinkRun.mk (-1) (tr ++ [.unlink path]) q ch out) = Outcome.done run ∧
      some path = some p ∧ .unlink p ∈ run.trace ∧
      run.trace.getLast? = some (.unlink p) ∧ (run.ret = -1 ↔ D) ∧ (¬ D → run.ret = 0) ∧
      (∀ ch1 log1, some (ready, ch0, log0) = some ((0 : Int), ch1, log1) → run.ret = -1) :=
  ⟨_, _, rfl, rfl, by simp, by simp, ⟨fun _ => hD, fun _ => rfl⟩, fun hn => absurd hD hn,
    fun _ _ _ => rfl⟩

/-- C4. Sink cleanup on every exit: whatever the outcomes of its steps, `receiver()` (with
the path buffer allocated and a pid that `getpid` can return) returns, the last call it
makes is `unlink` on the channel path of its own identity, and it returns -1 exactly when
one of its steps failed and 0 otherwise; a wait that ends Dead is such a failure. -/
theorem C4_sink_cleanup_every_exit (fuel : Nat) (w : SinkEnv) (hmalloc : w.pathMalloc = true)
    (hpid : 0 ≤ w.pid ∧ w.pid < 2 ^ 31)
    (hfuel : InFd.size w.channel + 22 ≤ fuel ∧ w.stdout.sched.length + 2 ≤ fuel) :
    ∃ run path, receiver fuel w = .done run ∧
      (get_channel_path false w.pathMalloc (get_id w.pid)).text = some path ∧
      .unlink path ∈ run.trace ∧ run.trace.getLast? = some (.unlink path) ∧
      (run.ret = -1 ↔ w.stepFailed fuel) ∧ (¬ w.stepFailed fuel → run.ret = 0) ∧
      (∀ ch log, receiver_wait_byte fuel w.channel = some (0, ch, log) → run.ret = -1) := by
  obtain ⟨hsafe, htext⟩ := get_channel_path_safe w.pid hpid.1 hpid.2
  obtain ⟨⟨ready, ch, log⟩, hwait⟩ := receiver_wait_byte_total fuel w.channel (by omega)
  have hsz : InFd.size ch ≤ InFd.size w.channel := wait_loop_size _ _ _ _ _ _ _ hwait
  obtain ⟨⟨copied, out, ch'⟩, hcopy⟩ :=
    fdtofd_cpy_total fuel w.copyMalloc w.stdout ch (by omega) hfuel.2
  rcases hq : write w.queue (get_id w.pid).bytes with ⟨wr, q⟩
  simp only [receiver, hmalloc, hsafe, htext, hq, hwait, hcopy]
  rw [sink_stepFailed_iff hq hwait hcopy]
  clear hsafe htext hsz
  generalize FIFO_CHANNEL_PATH_PREFIX ++ hexDigits (toUintmax w.pid) = path
  by_cases h1 : init_channel w.mkfifoChannel = -1
  · rw [if_pos h1]; exact sink_fail_case _ (Or.inl h1) _ _ _ _ _ _ _ _
  rw [if_neg h1]
  by_cases h2 : w.openChannel.val = -1
  · rw [if_pos h2]; exact sink_fail_case _ (Or.inr (Or.inl h2)) _ _ _ _ _ _ _ _
  rw [if_neg h2]
  by_cases h3 : w.mkfifoQueue.val = -1 ∧ w.mkfifoQueue.errnoIs .EEXIST = false
  · rw [if_pos h3]; exact sink_fail_case _ (Or.inr (Or.inr (Or.inl h3))) _ _ _ _ _ _ _ _
  rw [if_neg h3]
  by_cases h4 : w.openQueue.val = -1
  · rw [if_pos h4]
    exact sink_fail_case _ (Or.inr (Or.inr (Or.inr (Or.inl h4)))) _ _ _ _ _ _ _ _
  rw [if_neg h4]
  by_cases h5 : wr.val ≠ (sizeof_ident_t : Int)
  · rw [if_pos h5]
    exact sink_fail_case _ (Or.inr (Or.inr (Or.inr (Or.inr (Or.inl h5))))) _ _ _ _ _ _ _ _
  rw [if_neg h5]
  by_cases h6 : ready ≠ 1
  · rw [if_pos h6]
    exact sink_fail_case _ (Or.inr (Or.inr (Or.inr (Or.inr (Or.inr (Or.inl h6))))))
      _ _ _ _ _ _ _ _
  rw [if_neg h6]
  by_cases h7 : w.fcntlChannel.val = -1
  · rw [if_pos h7]
    exact sink_fail_case _ (Or.inr (Or.inr (Or.inr (Or.inr (Or.inr (Or.inr (Or.inl h7)))))))
      _ _ _ _ _ _ _ _
  rw [if_neg h7]
  by_cases h8 : copied = -1
  · rw [if_pos h8]
    exact sink_fail_case _
      (Or.inr (Or.inr (Or.inr (Or.inr (Or.inr (Or.inr (Or.inr (Or.inl h8))))))))
      _ _ _ _ _ _ _ _
  rw [if_neg h8]
  by_cases h9 : w.closeChannel.val = -1
  · rw [if_pos h9]
    exact sink_fail_case _
      (Or.inr (Or.inr (Or.inr (Or.inr (Or.inr (Or.inr (Or.inr (Or.inr (Or.inl h9)))))))))
      _ _ _ _ _ _ _ _
  rw [if_neg h9]
  by_cases h10 : w.closeQueue.val = -1
  · rw [if_pos h10]
    exact sink_fail_case _
      (Or.inr (Or.inr (Or.inr (Or.inr (Or.inr (Or.inr (Or.inr (Or.inr (Or.inr h10)))))))))
      _ _ _ _ _ _ _ _
  rw [if_neg h10]
  have hnD : ¬ (init_channel w.mkfifoChannel = -1 ∨ w.openChannel.val = -1 ∨
        (w.mkfifoQueue.val = -1 ∧ w.mkfifoQueue.errnoIs .EEXIST = false) ∨
        w.openQueue.val = -1 ∨ wr.val ≠ (sizeof_ident_t : Int) ∨ ready ≠ 1 ∨
        w.fcntlChannel.val = -1 ∨ copied = -1 ∨ w.closeChannel.val = -1 ∨
        w.closeQueue.val = -1) := by
    rintro (h | h | h | h | h | h | h | h | h | h) <;> contradiction
  refine ⟨_, _, rfl, rfl, by simp, by simp, ⟨fun h => ?_, fun h => absurd h hnD⟩,
    fun _ => rfl, ?_⟩
  · simp at h
  · intro ch1 log1 h
    simp only [Option.some.injEq, Prod.mk.injEq] at h
    exact absurd (by rw [h.1]; decide) h6

theorem read_ok_eof {fd fd' : InFd} {c : Nat} {bs : List Byte} (hc : 0 < c)
    (h : read fd c = (.ok bs, fd')) :
    (bs = [] → untilEof fd = [] ∧ afterEof fd = fd') ∧
    (bs ≠ [] → untilEof fd = bs ++ untilEof fd' ∧ afterEof fd = afterEof fd') := by
  unfold read at h
  split at h
  · simp only [Prod.mk.injEq, RdRes.ok.injEq] at h
    obtain ⟨h1, h2⟩ := h
    subst h1; subst h2
    exact ⟨fun _ => ⟨rfl, rfl⟩, fun hne => absurd rfl hne⟩
  · simp at h
  · rename_i b rest
    split at h
    · simp only [Prod.mk.injEq, RdRes.ok.injEq] at h
      obtain ⟨h1, h2⟩ := h
      subst h1; subst h2
      constructor
      · intro hb
        simp [untilEof, afterEof, hb]
      · intro hb
        simp [untilEof, afterEof, hb]
    · rename_i hgt
      simp only [Prod.mk.injEq, RdRes.ok.injEq] at h
      obtain ⟨h1, h2⟩ := h
      subst h1; subst h2
      have hlen : c < b.length := by omega
      have hb : b ≠ [] := by
        intro h0
        rw [h0] at hlen
        simp at hlen
      have hdrop : List.drop c b ≠ [] := by
        intro h0
        have := congrArg List.length h0
        simp only [List.length_drop, List.length_nil] at this
        omega
      constructor
      · intro h0
        have := congrArg List.length h0
        rw [List.length_take] at this
        simp only [List.length_nil] at this
        omega
      · intro _
        simp [untilEof, afterEof, hb, hdrop, ← List.append_assoc]

theorem fdtofd_loop_eof (fuel : Nat) : ∀ (k : Nat) (fd_out : OutFd) (fd_in : InFd) (s r : Int)
    (fd_out' : OutFd) (fd_in' : InFd),
    fdtofd_loop fuel k fd_out fd_in s = some (r, fd_out', fd_in') → r ≠ -1 →
    (∀ e ∈ fd_out.sched, e ≠ .accept 0) →
    fd_out'.written = fd_out.written ++ untilEof fd_in ∧ fd_in' = afterEof fd_in := by
  intro k
  induction k with
  | zero => intro _ _ _ _ _ _ h; simp [fdtofd_loop] at h
  | succ k ih =>
    intro fd_out fd_in s r fd_out' fd_in' h hr hz
    rw [fdtofd_loop] at h
    rcases hrd : read fd_in FDTOFD_CPY_BUF_SIZE with ⟨res, fd_in1⟩
    rw [hrd] at h
    cases res with
    | err e =>
      simp only at h
      have := read_err hrd
      subst this
      by_cases he : e = .EINTR
      · rw [if_pos he] at h
        simpa [untilEof, afterEof] using ih _ _ _ _ _ _ h hr hz
      · rw [if_neg he] at h
        simp only [Option.some.injEq, Prod.mk.injEq] at h
        exact absurd h.1.symm hr
    | ok bs =>
      simp only at h
      obtain ⟨_, hlen, _, _⟩ := read_ok (by decide) hrd
      obtain ⟨heof0, heof1⟩ := read_ok_eof (by decide) hrd
      by_cases hb : bs.length = 0
      · rw [if_pos hb] at h
        simp only [Option.some.injEq, Prod.mk.injEq] at h
        obtain ⟨_, h2, h3⟩ := h
        subst h2; subst h3
        obtain ⟨h4, h5⟩ := heof0 (List.length_eq_zero.mp hb)
        rw [h4, h5]
        simp
      · rw [if_neg hb] at h
        have hbne : bs ≠ [] := fun h0 => hb (by rw [h0]; rfl)
        obtain ⟨h4, h5⟩ := heof1 hbne
        rcases hcp : buftofd_cpy fuel fd_out bs with _ | ⟨tmp, fd_out1⟩
        · rw [hcp] at h; simp at h
        · rw [hcp] at h
          simp only at h
          obtain ⟨hs1, hres⟩ := buftofd_cpy_spec hcp hlen
          by_cases ht : tmp = -1
          · rw [if_pos ht] at h
            simp only [Option.some.injEq, Prod.mk.injEq] at h
            exact absurd h.1.symm hr
          · rw [if_neg ht] at h
            rcases hres with ⟨hm1, _⟩ | ⟨j, hj, hrj, hwj, hzj⟩
            · exact absurd hm1 ht
            · have hjl : j = bs.length := hzj hz
              subst hjl
              have ht2 : ¬ tmp ≠ (bs.length : Int) := by rw [hrj]; simp
              rw [if_neg ht2] at h
              obtain ⟨hw, hin⟩ :=
                ih _ _ _ _ _ _ h hr (fun e he => hz e (hs1.subset he))
              refine ⟨?_, ?_⟩
              · rw [hw, hwj, h4]; simp
              · rw [hin, h5]

theorem fdtofd_cpy_eof {fuel : Nat} {m : Bool} {fd_out fd_out' : OutFd} {fd_in fd_in' : InFd}
    {r : Int} (h : fdtofd_cpy fuel m fd_out fd_in = some (r, fd_out', fd_in')) (hr : r ≠ -1)
    (hz : ∀ e ∈ fd_out.sched, e ≠ .accept 0) :
    fd_out'.written = fd_out.written ++ untilEof fd_in ∧ fd_in' = afterEof fd_in := by
  unfold fdtofd_cpy at h
  split at h
  · simp only [Option.some.injEq, Prod.mk.injEq] at h
    exact absurd h.1.symm hr
  · exact fdtofd_loop_eof fuel fuel fd_out fd_in 0 r fd_out' fd_in' h hr hz

theorem fdtofd_cpy_copied {fuel : Nat} {m : Bool} {fd_out fd_out' : OutFd} {fd_in fd_in' : InFd}
    {r : Int} (h : fdtofd_cpy fuel m fd_out fd_in = some (r, fd_out', fd_in')) (hr : r ≠ -1)
    (hz : ∀ e ∈ fd_out.sched, e ≠ .accept 0) :
    ∃ copied, fd_out'.written = fd_out.written ++ copied ∧
      stream fd_in = copied ++ stream fd_in' := by
  unfold fdtofd_cpy at h
  split at h
  · simp only [Option.some.injEq, Prod.mk.injEq] at h
    exact absurd h.1.symm hr
  · exact (fdtofd_loop_copied fuel fuel fd_out fd_in 0 r fd_out' fd_in' h).2 hr hz

theorem sink_done_of_ite {c : Prop} [Decidable c] {a run : SinkRun} {B : Outcome SinkRun}
    (h : (if c then Outcome.done a else B) = .done run) (hret : run.ret = 0)
    (ha : a.ret = -1) : ¬ c ∧ B = .done run := by
  by_cases hc : c
  · rw [if_pos hc] at h
    cases h
    rw [ha] at hret
    exact absurd hret (by decide)
  · rw [if_neg hc] at h
    exact ⟨hc, h⟩

theorem receiver_success {fuel : Nat} {w : SinkEnv} {run : SinkRun}
    (h : receiver fuel w = .done run) (hret : run.ret = 0) :
    ∃ ch log copied, receiver_wait_byte fuel w.channel = some (1, ch, log) ∧
      fdtofd_cpy fuel w.copyMalloc w.stdout ch = some (copied, run.stdout, run.channel) ∧
      copied ≠ -1 := by
  rcases hs : (get_channel_path false w.pathMalloc (get_id w.pid)).safe with _ | _
  · simp only [receiver, hs] at h
    cases h
  rcases ht : (get_channel_path false w.pathMalloc (get_id w.pid)).text with _ | path
  · simp only [receiver, hs, ht] at h
    cases h
  rcases hq : write w.queue (get_id w.pid).bytes with ⟨wr, q⟩
  simp only [receiver, hs, ht, hq] at h
  clear hs ht
  obtain ⟨_, h⟩ := sink_done_of_ite h hret rfl
  obtain ⟨_, h⟩ := sink_done_of_ite h hret rfl
  obtain ⟨_, h⟩ := sink_done_of_ite h hret rfl
  obtain ⟨_, h⟩ := sink_done_of_ite h hret rfl
  obtain ⟨_, h⟩ := sink_done_of_ite h hret rfl
  rcases hwait : receiver_wait_byte fuel w.channel with _ | ⟨ready, ch, log⟩
  · rw [hwait] at h
    cases h
  rw [hwait] at h
  simp only at h
  obtain ⟨h6, h⟩ := sink_done_of_ite h hret rfl
  obtain ⟨_, h⟩ := sink_done_of_ite h hret rfl
  rcases hcopy : fdtofd_cpy fuel w.copyMalloc w.stdout ch with _ | ⟨copied, out, ch'⟩
  · rw [hcopy] at h
    cases h
  rw [hcopy] at h
  simp only at h
  obtain ⟨h8, h⟩ := sink_done_of_ite h hret rfl
  obtain ⟨_, h⟩ := sink_done_of_ite h hret rfl
  obtain ⟨_, h⟩ := sink_done_of_ite h hret rfl
  cases h
  exact ⟨ch, log, copied, by rw [not_not.mp h6], hcopy, h8⟩

theorem source_done_of_ite {c : Prop} [Decidable c] {a run : SourceRun} {B : Outcome SourceRun}
    (h : (if c then Outcome.done a else B) = .done run) (hret : run.ret = 0)
    (ha : a.ret = -1) : ¬ c ∧ B = .done run := by
  by_cases hc : c
  · rw [if_pos hc] at h
    cases h
    rw [ha] at hret
    exact absurd hret (by decide)
  · rw [if_neg hc] at h
    exact ⟨hc, h⟩

theorem sender_success {fuel : Nat} {w : SourceEnv} {run : SourceRun}
    (h : sender fuel w = .done run) (hret : run.ret = 0) :
    ∃ sent ch copied, buftofd_cpy fuel w.channel [1] = some (sent, ch) ∧ sent ≠ -1 ∧
      fdtofd_cpy fuel w.copyMalloc ch w.input = some (copied, run.channel, run.input) ∧
      copied ≠ -1 := by
  rcases hq : read w.queue sizeof_ident_t with ⟨rd, q⟩
  simp only [sender, hq] at h
  obtain ⟨_, h⟩ := source_done_of_ite h hret rfl
  obtain ⟨_, h⟩ := source_done_of_ite h hret rfl
  obtain ⟨_, h⟩ := source_done_of_ite h hret rfl
  obtain ⟨_, h⟩ := source_done_of_ite h hret rfl
  rcases hs : (get_channel_path false w.pathMalloc (ident_t.ofBytes rd.bytes)).safe with _ | _
  · simp only [hs] at h
    cases h
  rcases ht : (get_channel_path false w.pathMalloc (ident_t.ofBytes rd.bytes)).text
    with _ | path
  · simp only [hs, ht] at h
    cases h
  simp only [hs, ht] at h
  clear hs ht
  obtain ⟨_, h⟩ := source_done_of_ite h hret rfl
  obtain ⟨_, h⟩ := source_done_of_ite h hret rfl
  rcases hsync : buftofd_cpy fuel w.channel [1] with _ | ⟨sent, ch⟩
  · rw [hsync] at h
    cases h
  rw [hsync] at h
  simp only at h
  obtain ⟨h1, h⟩ := source_done_of_ite h hret rfl
  rcases hcopy : fdtofd_cpy fuel w.copyMalloc ch w.input with _ | ⟨copied, ch', inp⟩
  · rw [hcopy] at h
    cases h
  rw [hcopy] at h
  simp only at h
  obtain ⟨h2, h⟩ := source_done_of_ite h hret rfl
  obtain ⟨_, h⟩ := source_done_of_ite h hret rfl
  obtain ⟨_, h⟩ := source_done_of_ite h hret rfl
  obtain ⟨_, h⟩ := source_done_of_ite h hret rfl
  cases h
  exact ⟨sent, ch, copied, rfl, h1, hcopy, h2⟩

/-- Witness of C4: the Sink starts and no Source ever appears (scenario B); the wait ends
Dead, `receiver()` returns -1 and the channel path is unlinked. -/
theorem C4_sink_cleanup_every_exit_witness :
    ∃ run path, receiver 40 sinkEnvNoSource = .done run ∧
      (get_channel_path false sinkEnvNoSource.pathMalloc (get_id sinkEnvNoSource.pid)).text
        = some path ∧
      .unlink path ∈ run.trace ∧ run.trace.getLast? = some (.unlink path) ∧
      (run.ret = -1 ↔ sinkEnvNoSource.stepFailed 40) ∧
      (¬ sinkEnvNoSource.stepFailed 40 → run.ret = 0) ∧
      (∀ ch log, receiver_wait_byte 40 sinkEnvNoSource.channel = some (0, ch, log) →
        run.ret = -1) :=
  C4_sink_cleanup_every_exit 40 sinkEnvNoSource (by decide) (by decide) (by decide)

/-- C5, as stated, fails: standard output accepts 0 bytes of the first chunk without an
error; the copier has read the three payload bytes from the channel, has written none of
them, and `receiver()` returns 0.  The same happens in `sender()` when the channel accepts 0
bytes of the first chunk. -/
theorem C5_success_after_short_copy_counterexample :
    (∃ run, receiver 40 sinkEnvShortWrite = .done run ∧ run.ret = 0 ∧
      receiver_wait_byte 40 sinkEnvShortWrite.channel
        = some (1, [.data [10, 20, 30]], { reads := 2, sleeps := [8] }) ∧
      run.channel = [] ∧ run.stdout.written = []) ∧
    (∃ run, sender 40 sourceEnvShortWrite = .done run ∧ run.ret = 0 ∧
      stream sourceEnvShortWrite.input = [10, 20, 30] ∧ run.input = [] ∧
      run.channel.written = [1]) :=
  ⟨⟨_, rfl, rfl, rfl, rfl, rfl⟩, ⟨_, rfl, rfl, rfl, rfl, rfl⟩⟩

/-- C5, amended. A role never reports success when the Byte Copier reported an error or
stopped before the end of its input: in every run in which `receiver()` or `sender()`
returns 0, `fdtofd_cpy` returned a value other than -1, and, when no `write` on the
destination returned 0, the Byte Copier ran to the end of its input stream (it stopped at the
first `read` that returned 0 bytes) and every byte it read from the source endpoint up to
there was written to the destination, in order. -/
theorem C5_success_only_after_complete_copy :
    (∀ (fuel : Nat) (w : SinkEnv) (run : SinkRun), receiver fuel w = .done run → run.ret = 0 →
      ∃ ch log copied, receiver_wait_byte fuel w.channel = some (1, ch, log) ∧
        fdtofd_cpy fuel w.copyMalloc w.stdout ch = some (copied, run.stdout, run.channel) ∧
        copied ≠ -1 ∧
        ((∀ e ∈ w.stdout.sched, e ≠ .accept 0) →
          run.stdout.written = w.stdout.written ++ untilEof ch ∧
          run.channel = afterEof ch ∧
          ∃ bytes, run.stdout.written = w.stdout.written ++ bytes ∧
            stream ch = bytes ++ stream run.channel)) ∧
    (∀ (fuel : Nat) (w : SourceEnv) (run : SourceRun), sender fuel w = .done run → run.ret = 0 →
      ∃ sent ch copied, buftofd_cpy fuel w.channel [1] = some (sent, ch) ∧
        fdtofd_cpy fuel w.copyMalloc ch w.input = some (copied, run.channel, run.input) ∧
        copied ≠ -1 ∧
        ((∀ e ∈ w.channel.sched, e ≠ .accept 0) →
          run.channel.written = ch.written ++ untilEof w.input ∧
          run.input = afterEof w.input ∧
          ∃ bytes, run.channel.written = ch.written ++ bytes ∧
            stream w.input = bytes ++ stream run.input)) := by
  constructor
  · intro fuel w run h hret
    obtain ⟨ch, log, copied, hwait, hcopy, hne⟩ := receiver_success h hret
    refine ⟨ch, log, copied, hwait, hcopy, hne, fun hz => ?_⟩
    obtain ⟨h1, h2⟩ := fdtofd_cpy_eof hcopy hne hz
    exact ⟨h1, h2, fdtofd_cpy_copied hcopy hne hz⟩
  · intro fuel w run h hret
    obtain ⟨sent, ch, copied, hsync, _, hcopy, hne⟩ := sender_success h hret
    refine ⟨sent, ch, copied, hsync, hcopy, hne, fun hz => ?_⟩
    have hsuf := (buftofd_cpy_spec hsync (by decide)).1
    have hz' : ∀ e ∈ ch.sched, e ≠ .accept 0 := fun e he => hz e (hsuf.subset he)
    obtain ⟨h1, h2⟩ := fdtofd_cpy_eof hcopy hne hz'
    exact ⟨h1, h2, fdtofd_cpy_copied hcopy hne hz'⟩

/-- Witness of C5 (amended): the run of `receiver()` in which every step succeeds writes the
three payload bytes and leaves the channel at its end, and so does the run of `sender()`. -/
theorem C5_success_only_after_complete_copy_witness :
    (∃ ch log copied, receiver_wait_byte 40 sinkEnvOk.channel = some (1, ch, log) ∧
      fdtofd_cpy 40 sinkEnvOk.copyMalloc sinkEnvOk.stdout ch
        = some (copied, { sched := [], written := [10, 20, 30] }, []) ∧
      copied ≠ -1 ∧
      ((∀ e ∈ sinkEnvOk.stdout.sched, e ≠ .accept 0) →
        ([10, 20, 30] : List Byte) = sinkEnvOk.stdout.written ++ untilEof ch ∧
        ([] : InFd) = afterEof ch ∧
        ∃ bytes, ([10, 20, 30] : List Byte) = sinkEnvOk.stdout.written ++ bytes ∧
          stream ch = bytes ++ stream [])) ∧
    (∃ sent ch copied, buftofd_cpy 40 sourceEnvOk.channel [1] = some (sent, ch) ∧
      fdtofd_cpy 40 sourceEnvOk.copyMalloc ch sourceEnvOk.input
        = some (copied, { sched := [], written := [1, 10, 20, 30] }, []) ∧
      copied ≠ -1 ∧
      ((∀ e ∈ sourceEnvOk.channel.sched, e ≠ .accept 0) →
        ([1, 10, 20, 30] : List Byte) = ch.written ++ untilEof sourceEnvOk.input ∧
        ([] : InFd) = afterEof sourceEnvOk.input ∧
        ∃ bytes, ([1, 10, 20, 30] : List Byte) = ch.written ++ bytes ∧
          stream sourceEnvOk.input = bytes ++ stream [])) :=
  ⟨C5_success_only_after_complete_copy.1 40 sinkEnvOk
      { ret := 0,
        trace := [.usleep 8, .unlink ['c', 'h', 'a', 'n', 'n', 'e', 'l', '.', '1', '2', '3', '4']],
        queue := { sched := [], written := [0x34, 0x12, 0, 0] }, channel := [],
        stdout := { sched := [], written := [10, 20, 30] } } (by decide) (by decide),
   C5_success_only_after_complete_copy.2 40 sourceEnvOk
      { ret := 0,
        trace := [.unlink ['c', 'h', 'a', 'n', 'n', 'e', 'l', '.', '1', '2', '3', '4']],
        queue := [], channel := { sched := [], written := [1, 10, 20, 30] }, input := [] }
      (by decide) (by decide)⟩

/-- C7 fails on the code: with the queue write failing once with `EINTR` (and accepting the
whole identity if repeated), `receiver()` does not retry and returns -1; with the queue read
failing once with `EINTR` (and delivering the whole identity if repeated), `sender()` does
not retry and returns -1.  The sibling calls do retry: `buftofd_cpy` rides out the same
interrupted write and `fdtofd_cpy` the same interrupted read. -/
theorem C7_queue_interruption_surfaces :
    (∃ run, receiver 40 sinkEnvQueueEintr = .done run ∧ run.ret = -1 ∧
      run.queue = { sched := [], written := [] } ∧
      write run.queue (get_id sinkEnvQueueEintr.pid).bytes
        = (.ok sizeof_ident_t, { sched := [], written := [0x34, 0x12, 0, 0] })) ∧
    (∃ run, sender 40 sourceEnvQueueEintr = .done run ∧ run.ret = -1 ∧
      read run.queue sizeof_ident_t = (.ok [0x34, 0x12, 0, 0], [])) ∧
    buftofd_cpy 40 sinkEnvQueueEintr.queue (get_id sinkEnvQueueEintr.pid).bytes
      = some (4, { sched := [], written := [0x34, 0x12, 0, 0] }) ∧
    fdtofd_cpy 40 true { sched := [], written := [] } sourceEnvQueueEintr.queue
      = some (4, { sched := [], written := [0x34, 0x12, 0, 0] }, []) :=
  ⟨⟨_, rfl, rfl, rfl, rfl⟩, ⟨_, rfl, rfl, rfl⟩, rfl, rfl⟩

/-- C8 fails on the code: when `malloc` returns `NULL`, `get_channel_path` tests `buf_p` (the
address of the caller's variable, never `NULL`) instead of `*buf_p`, so it does not return
-1 but calls `sprintf` with the `NULL` destination; and neither role looks at the value
`get_channel_path` returns, so neither returns -1: the run reaches undefined behaviour. -/
theorem C8_path_allocation_failure_unchecked :
    (get_channel_path false false { pid := 4660 }).dest = none ∧
    (get_channel_path false false { pid := 4660 }).ret = 12 ∧
    (get_channel_path false false { pid := 4660 }).text
      = some ['c', 'h', 'a', 'n', 'n', 'e', 'l', '.', '1', '2', '3', '4'] ∧
    (get_channel_path false false { pid := 4660 }).safe = false ∧
    receiver 40 { sinkEnvOk with pathMalloc := false } = .undefined ∧
    sender 40 { sourceEnvOk with pathMalloc := false } = .undefined :=
  ⟨rfl, rfl, rfl, rfl, rfl, rfl⟩

/-- C10 fails on the code for negative pids: the conversion to `uintmax_t` sign-extends, so
for the identity with pid -1 (which `sender()` reads from the queue as the bytes
`ff ff ff ff`) `get_channel_path` stores 8 + 16 + 1 = 25 bytes into the buffer of
`FIFO_CHANNEL_PATH_MAX = 17` bytes, and the run of `sender()` reaches undefined behaviour. -/
theorem C10_path_overflows_for_negative_pid :
    FIFO_CHANNEL_PATH_MAX = 17 ∧
    (get_channel_path false true { pid := -1 }).dest = some 17 ∧
    (get_channel_path false true { pid := -1 }).bytesStored = 25 ∧
    (get_channel_path false true { pid := -1 }).safe = false ∧
    ident_t.ofBytes [255, 255, 255, 255] = { pid := -1 } ∧
    ({ pid := -1 } : ident_t).inRange ∧
    sender 40 { sourceEnvOk with queue := [.data [255, 255, 255, 255]] } = .undefined :=
  ⟨rfl, rfl, rfl, rfl, rfl, by decide, rfl⟩

end Lunev
